import Mathlib

/-!
# logfusc: a verification development

The Go package `logfusc` (src/logfusc.go) wraps a sensitive value in `Secret[T]` and
redacts it on the rendering paths of packages `fmt` and `encoding/json`.

Conventions of the embedding:

* a Go `string` is a Lean `String`, a sequence of runes: the strings that the program
  makes (type names, templates, decoded JSON strings) are valid UTF-8; a Go `[]byte` is a
  list of bytes, valid UTF-8 or not; `bytesOf` and `runes` convert between the two as Go
  does;
* a generic type parameter `T any` is a Lean type with a `GoType` instance that carries
  what package `reflect` reports about it;
* a method with a pointer receiver returns the new receiver next to its result;
* the library functions the program calls (`fmt.Sprintf`, `json.Unmarshal`) are modelled
  in the sections named after their packages.
-/

namespace Logfusc

/-- The Go type `string`. -/
abbrev string : Type := String

/-- The Go type `[]byte`. -/
abbrev bytes : Type := List UInt8

/-! ## Package unicode/utf8 -/

/-- The conversion `[]byte(s)`: the UTF-8 form of the string. -/
def bytesOf (s : string) : bytes := s.toList.flatMap String.utf8EncodeChar

/-- The rune of a code point, `U+FFFD` for a surrogate or a value past `U+10FFFF`. -/
def runeOf (n : Nat) : Char :=
  if h : n.isValidChar then Char.ofNatAux n h else Char.ofNat 0xFFFD

/-- A multi-byte UTF-8 sequence under way in `utf8.DecodeRune`: the number of bytes
read, the number of bytes still to come, the bits gathered, and the range that the next
byte has to be in. -/
structure Pending where
  read : Nat
  more : Nat
  bits : Nat
  lo : Nat
  hi : Nat

/-- The first byte of a sequence, as the table `first` of package utf8 classifies it:
a rune of one byte, the start of a longer sequence, or an invalid byte, which is
`U+FFFD`. -/
def firstByte (b : Nat) : Char ⊕ Pending :=
  if b < 0x80 then .inl (Char.ofNat b)
  else if b < 0xC2 then .inl (Char.ofNat 0xFFFD)
  else if b < 0xE0 then .inr ⟨1, 1, b % 0x20, 0x80, 0xBF⟩
  else if b = 0xE0 then .inr ⟨1, 2, b % 0x10, 0xA0, 0xBF⟩
  else if b = 0xED then .inr ⟨1, 2, b % 0x10, 0x80, 0x9F⟩
  else if b < 0xF0 then .inr ⟨1, 2, b % 0x10, 0x80, 0xBF⟩
  else if b = 0xF0 then .inr ⟨1, 3, b % 0x08, 0x90, 0xBF⟩
  else if b < 0xF4 then .inr ⟨1, 3, b % 0x08, 0x80, 0xBF⟩
  else if b = 0xF4 then .inr ⟨1, 3, b % 0x08, 0x80, 0x8F⟩
  else .inl (Char.ofNat 0xFFFD)

/-- The runes of a byte slice, `[]rune(string(data))`, which is also how package
encoding/json reads the bytes of a string literal: `utf8.DecodeRune` over and over, where
a byte that starts no valid sequence is `U+FFFD` and decoding goes on at the next byte.
The second argument is the sequence under way. -/
def runesFrom : bytes → Option Pending → List Char
  | [], none => []
  | [], some p => List.replicate p.read (Char.ofNat 0xFFFD)
  | b :: rest, none =>
    match firstByte b.toNat with
    | .inl c => c :: runesFrom rest none
    | .inr p => runesFrom rest (some p)
  | b :: rest, some p =>
    if p.lo ≤ b.toNat ∧ b.toNat ≤ p.hi then
      if p.more = 1 then runeOf (p.bits * 0x40 + b.toNat % 0x40) :: runesFrom rest none
      else
        runesFrom rest (some ⟨p.read + 1, p.more - 1, p.bits * 0x40 + b.toNat % 0x40, 0x80, 0xBF⟩)
    else
      List.replicate p.read (Char.ofNat 0xFFFD) ++
        match firstByte b.toNat with
        | .inl c => c :: runesFrom rest none
        | .inr q => runesFrom rest (some q)

/-- The runes of a byte slice. -/
def runes (data : bytes) : List Char := runesFrom data none

/-! ## Package fmt: directives -/

/-- The flag fields of the printer state (`fmt.fmtFlags`) that a directive without
width and precision can set. -/
structure Flags where
  sharp : Bool
  zero : Bool
  plus : Bool
  minus : Bool
  space : Bool
  sharpV : Bool
  plusV : Bool
deriving DecidableEq, Repr

/-- The state after `clearflags`. -/
def Flags.clear : Flags := ⟨false, false, false, false, false, false, false⟩

/-- One flag character of a directive, as the flag loop of `doPrintf` records it;
`none` when the character is not a flag. -/
def Flags.set (f : Flags) (c : Char) : Option Flags :=
  if c = '#' then some { f with sharp := true }
  else if c = '0' then some { f with zero := !f.minus }
  else if c = '+' then some { f with plus := true }
  else if c = '-' then some { f with minus := true, zero := false }
  else if c = ' ' then some { f with space := true }
  else none

/-- For the verb `v`, `doPrintf` moves the flags `#` and `+` to `sharpV` and `plusV`. -/
def Flags.forVerb (f : Flags) (verb : Char) : Flags :=
  if verb = 'v' then { f with sharpV := f.sharp, sharp := false, plusV := f.plus, plus := false }
  else f

/-- How package fmt prints operands of type `α`: the string of the dynamic type, which
the verb `T` prints, and the output for every other verb. The output is `none` where
this model does not say what package fmt prints. -/
structure Printer (α : Type) where
  typeString : α → String
  verb : α → Flags → Char → Option String

/-- `printArg`: the verb `T` prints the type of the operand whatever the operand is. -/
def Printer.printArg {α : Type} (p : Printer α) (arg : α) (f : Flags) (verb : Char) :
    Option String :=
  if verb = 'T' then some (p.typeString arg) else p.verb arg f verb

/-- The operands, none of them a nil interface, that `doPrintf` reports as
`%!(EXTRA type=value, ...)`. -/
def extraArgs {α : Type} (p : Printer α) : List α → Option String
  | [] => some ""
  | [a] => (p.printArg a Flags.clear 'v').map (fun s => p.typeString a ++ "=" ++ s)
  | a :: rest =>
    match p.printArg a Flags.clear 'v', extraArgs p rest with
    | some s, some r => some (p.typeString a ++ "=" ++ s ++ ", " ++ r)
    | _, _ => none

/-- The check for operands left over that ends `doPrintf`. -/
def finish {α : Type} (p : Printer α) (a : List α) (argNum : Nat) (reordered : Bool) :
    Option String :=
  if !reordered && argNum < a.length then
    (extraArgs p (a.drop argNum)).map (fun s => "%!(EXTRA " ++ s ++ ")")
  else some ""

/-- The scanning state of `doPrintf` inside a format: copying text, reading the flags
of a directive, reading an argument index between brackets, or expecting the verb.
`goodArgNum` is the field of that name; `mayIndex` says that `argNumber` has not yet
found an index in this directive and is called once more before the verb. -/
inductive Scan
  | text
  | flags (f : Flags)
  | index (f : Flags) (num : Nat) (isnum : Bool) (bad : Bool) (goodArgNum : Bool)
      (second : Bool)
  | verb (f : Flags) (goodArgNum : Bool) (mayIndex : Bool)

/-- The state after an opening bracket, as `parseArgNumber` decides it from the rest of
the format: without room for `[n]` or without a closing bracket only the opening
bracket is skipped and the argument number is bad. -/
def Scan.bracket (f : Flags) (rest : List Char) (goodArgNum second : Bool) : Scan :=
  if rest.length < 2 ∨ ¬ rest.contains ']' then .verb f false (!second)
  else .index f 0 false false goodArgNum second

/-- What `doPrintf` writes for the verb `c` and which operand is next; `none`
where the printer gives `none`. -/
def verbStep {α : Type} (p : Printer α) (a : List α) (f : Flags) (goodArgNum : Bool)
    (c : Char) (argNum : Nat) : Option (String × Nat) :=
  if c = '%' then some ("%", argNum)
  else if !goodArgNum then some ("%!" ++ c.toString ++ "(BADINDEX)", argNum)
  else
    match a.get? argNum with
    | none => some ("%!" ++ c.toString ++ "(MISSING)", argNum)
    | some arg => (p.printArg arg (f.forVerb c) c).map (fun s => (s, argNum + 1))

/-- Model of `(*pp).doPrintf` for directives made of flags, an optional argument index
`[n]` and a verb. `argNum` is the index of the next operand and `reordered` records that
an argument index was used. The result is `none` for a directive with a width or a
precision, for the verb `w`, whose handling changed between Go releases, and where the
printer gives `none`. -/
def doPrintf {α : Type} (p : Printer α) (a : List α) :
    List Char → Scan → Nat → Bool → Option String
  | [], .text, argNum, reordered => finish p a argNum reordered
  | [], _, argNum, reordered => (finish p a argNum reordered).map (fun r => "%!(NOVERB)" ++ r)
  | c :: cs, .text, argNum, reordered =>
    if c = '%' then doPrintf p a cs (.flags Flags.clear) argNum reordered
    else (doPrintf p a cs .text argNum reordered).map (fun r => c.toString ++ r)
  | c :: cs, .flags f, argNum, reordered =>
    match f.set c with
    | some f1 => doPrintf p a cs (.flags f1) argNum reordered
    | none =>
      if c = '[' then doPrintf p a cs (Scan.bracket f cs true false) argNum true
      else if c.isDigit ∨ c = '.' ∨ c = '*' ∨ c = 'w' then none
      else
        match verbStep p a f true c argNum with
        | none => none
        | some (s, next) => (doPrintf p a cs .text next reordered).map (fun r => s ++ r)
  | c :: cs, .index f num isnum bad good second, argNum, reordered =>
    if c = ']' then
      if isnum ∧ ¬ bad then
        if 1 ≤ num ∧ num ≤ a.length then doPrintf p a cs (.verb f good false) (num - 1) reordered
        else doPrintf p a cs (.verb f false false) argNum reordered
      else doPrintf p a cs (.verb f false (!second)) argNum reordered
    else if c.isDigit ∧ ¬ bad then
      if num > 1000000 then doPrintf p a cs (.index f num isnum true good second) argNum reordered
      else
        doPrintf p a cs (.index f (num * 10 + (c.toNat - '0'.toNat)) true false good second)
          argNum reordered
    else doPrintf p a cs (.index f num isnum true good second) argNum reordered
  | c :: cs, .verb f good mayIndex, argNum, reordered =>
    if c = '[' ∧ mayIndex then doPrintf p a cs (Scan.bracket f cs good true) argNum true
    else if c.isDigit ∨ c = '.' ∨ c = '*' ∨ c = 'w' then none
    else
      match verbStep p a f good c argNum with
      | none => none
      | some (s, next) => (doPrintf p a cs .text next reordered).map (fun r => s ++ r)

/-- Model of `fmt.Sprintf(format, a...)`. -/
def Sprintf {α : Type} (p : Printer α) (format : String) (a : List α) : Option String :=
  doPrintf p a format.toList .text 0 false

/-! ## Types and values at run time -/

/-- What the program and the libraries it calls use of a Go type `T`. -/
class GoType (T : Type) where
  /-- The zero value, the content of a variable declared by `var value T`. -/
  zero : T
  /-- The name of the type, `reflect.TypeFor[T]().String()`. -/
  name : string
  /-- What the verb `T` prints for a value of static type `T` passed as `any`:
  `reflect.TypeOf(any(v)).String()`, and `<nil>` for a nil interface value. For a `T`
  that is not an interface type this is the name of `T`; for an interface type it is
  the name of the dynamic type of the value. -/
  dynamicType : T → string

/-- The printer for a wrapped value passed as `any`. The program asks package fmt only
for the type of a wrapped value; what the value prints under another verb is not
modelled. -/
def anyValue (T : Type) [GoType T] : Printer T :=
  ⟨GoType.dynamicType, fun _ _ _ => none⟩

/-! ## Package encoding/json: the decoder as the program sees it -/

/-- The errors of `json.Unmarshal`: `*json.SyntaxError`, `*json.UnmarshalTypeError` with
its fields `Value` and `Type`, and the error returned by an `UnmarshalJSON` method of
the target. -/
inductive JsonError
  | invalidSyntax
  | unmarshalType (value : string) (type : string)
  | custom (msg : string)
deriving DecidableEq, Repr

/-- A Go type as a target of `json.Unmarshal`. -/
class JSONTarget (T : Type) where
  /-- The call `json.Unmarshal(data, &value)`: from the bytes and what the variable
  `value` holds before the call, what it holds when the call returns, and the error. -/
  unmarshal : bytes → T → T × Option JsonError

/-! ## Package encoding/json: JSON texts -/

/-- A JSON value as the scanner of package encoding/json delimits it. A number keeps
its literal and a string is unquoted. -/
inductive JSON
  | null
  | bool (b : Bool)
  | number (lit : string)
  | str (s : string)
  | array (elems : List JSON)
  | object (members : List (string × JSON))

/-- Insignificant whitespace: space, tab, carriage return and line feed. -/
def isSpace (c : Char) : Bool := c = ' ' || c = '\t' || c = '\r' || c = '\n'

/-- The text after leading whitespace. -/
def skipSpace : List Char → List Char
  | [] => []
  | c :: cs => if isSpace c then skipSpace cs else c :: cs

/-- The value of a hexadecimal digit. -/
def hexValue (c : Char) : Option Nat :=
  if '0' ≤ c ∧ c ≤ '9' then some (c.toNat - '0'.toNat)
  else if 'a' ≤ c ∧ c ≤ 'f' then some (c.toNat - 'a'.toNat + 10)
  else if 'A' ≤ c ∧ c ≤ 'F' then some (c.toNat - 'A'.toNat + 10)
  else none

/-- Where the scanner stands inside a string literal: between characters, after a
backslash, or inside the four hexadecimal digits of a `\u` escape. -/
inductive StrState
  | plain
  | escape
  | hex (count : Nat) (value : Nat)

/-- The runes to write for a pending high surrogate that found no low surrogate. -/
def flushSurrogate : Option Nat → List Char
  | none => []
  | some _ => [Char.ofNat 0xFFFD]

/-- The rest of a string literal after its opening quote: the unquoted content, as
`unquote` of package encoding/json computes it, and the text after the closing quote.
`pending` is a high surrogate read from a `\u` escape that waits for its low surrogate.
`none` for a literal that the scanner rejects. -/
def scanString : List Char → StrState → Option Nat → Option (List Char × List Char)
  | [], _, _ => none
  | c :: cs, .plain, pending =>
    if c = '"' then some (flushSurrogate pending, cs)
    else if c = '\\' then scanString cs .escape pending
    else if c.toNat < 0x20 then none
    else (scanString cs .plain none).map fun (s, r) => (flushSurrogate pending ++ c :: s, r)
  | c :: cs, .escape, pending =>
    if c = 'u' then scanString cs (.hex 0 0) pending
    else
      let out : Option Char :=
        if c = '"' ∨ c = '\\' ∨ c = '/' then some c
        else if c = 'b' then some (Char.ofNat 8)
        else if c = 'f' then some (Char.ofNat 12)
        else if c = 'n' then some '\n'
        else if c = 'r' then some '\r'
        else if c = 't' then some '\t'
        else none
      match out with
      | none => none
      | some o =>
        (scanString cs .plain none).map fun (s, r) => (flushSurrogate pending ++ o :: s, r)
  | c :: cs, .hex count value, pending =>
    match hexValue c with
    | none => none
    | some d =>
      let v := value * 16 + d
      if count < 3 then scanString cs (.hex (count + 1) v) pending
      else if 0xD800 ≤ v ∧ v < 0xDC00 then
        (scanString cs .plain (some v)).map fun (s, r) => (flushSurrogate pending ++ s, r)
      else if 0xDC00 ≤ v ∧ v < 0xE000 then
        match pending with
        | some hi =>
          (scanString cs .plain none).map fun (s, r) =>
            (runeOf (0x10000 + (hi - 0xD800) * 0x400 + (v - 0xDC00)) :: s, r)
        | none => (scanString cs .plain none).map fun (s, r) => (Char.ofNat 0xFFFD :: s, r)
      else
        (scanString cs .plain none).map fun (s, r) => (flushSurrogate pending ++ runeOf v :: s, r)

/-- The longest run of decimal digits at the head of a text, and the rest. -/
def takeDigits : List Char → List Char × List Char
  | [] => ([], [])
  | c :: cs =>
    if c.isDigit then ((takeDigits cs).1.cons c, (takeDigits cs).2) else ([], c :: cs)

/-- The integer part of a number literal at the head of a text, and the rest: one or
more digits, without a leading zero before another digit. -/
def scanInteger (cs : List Char) : Option (List Char × List Char) :=
  let int := (takeDigits cs).1
  if int = [] ∨ (int.head? = some '0' ∧ int.length > 1) then none
  else some (int, (takeDigits cs).2)

/-- The optional fraction of a number literal: a point and one or more digits. -/
def scanFraction : List Char → Option (List Char × List Char)
  | '.' :: r =>
    if (takeDigits r).1 = [] then none else some ('.' :: (takeDigits r).1, (takeDigits r).2)
  | r => some ([], r)

/-- The digits of an exponent after its letter and sign, of which there is one at
least. -/
def scanExponentDigits (mark : List Char) (r : List Char) : Option (List Char × List Char) :=
  if (takeDigits r).1 = [] then none else some (mark ++ (takeDigits r).1, (takeDigits r).2)

/-- The optional exponent of a number literal: the letter `e` or `E`, an optional sign
and one or more digits. -/
def scanExponent : List Char → Option (List Char × List Char)
  | [] => some ([], [])
  | e :: r =>
    if e = 'e' ∨ e = 'E' then
      match r with
      | '+' :: t => scanExponentDigits [e, '+'] t
      | '-' :: t => scanExponentDigits [e, '-'] t
      | t => scanExponentDigits [e] t
    else some ([], e :: r)

/-- The optional minus sign of a number literal, and the rest. -/
def scanSign : List Char → List Char × List Char
  | '-' :: r => (['-'], r)
  | r => ([], r)

/-- A number literal at the head of a text, and the rest: an optional minus sign, an
integer part, an optional fraction and an optional exponent. -/
def scanNumber (cs : List Char) : Option (List Char × List Char) :=
  match scanInteger (scanSign cs).2 with
  | none => none
  | some (int, cs2) =>
    match scanFraction cs2 with
    | none => none
    | some (frac, cs3) =>
      match scanExponent cs3 with
      | none => none
      | some (exp, cs4) => some ((scanSign cs).1 ++ int ++ frac ++ exp, cs4)

/-- The text after the characters `lit`, when the text starts with them. -/
def dropLiteral : List Char → List Char → Option (List Char)
  | [], cs => some cs
  | _ :: _, [] => none
  | l :: ls, c :: cs => if l = c then dropLiteral ls cs else none

mutual
/-- A JSON value at the head of a text, after optional whitespace, and the rest.
`fuel` bounds the number of nested calls. -/
def parseValue : Nat → List Char → Option (JSON × List Char)
  | 0, _ => none
  | fuel + 1, cs =>
    match skipSpace cs with
    | [] => none
    | c :: rest =>
      if c = '{' then
        match skipSpace rest with
        | [] => none
        | d :: rest1 =>
          if d = '}' then some (.object [], rest1)
          else (parseMembers fuel (d :: rest1)).map fun (ms, r) => (.object ms, r)
      else if c = '[' then
        match skipSpace rest with
        | [] => none
        | d :: rest1 =>
          if d = ']' then some (.array [], rest1)
          else (parseElements fuel (d :: rest1)).map fun (vs, r) => (.array vs, r)
      else if c = '"' then
        (scanString rest .plain none).map fun (s, r) => (.str (String.mk s), r)
      else if c = 't' then (dropLiteral ['r', 'u', 'e'] rest).map fun r => (.bool true, r)
      else if c = 'f' then
        (dropLiteral ['a', 'l', 's', 'e'] rest).map fun r => (.bool false, r)
      else if c = 'n' then (dropLiteral ['u', 'l', 'l'] rest).map fun r => (.null, r)
      else (scanNumber (c :: rest)).map fun (lit, r) => (.number (String.mk lit), r)
/-- The elements of an array up to its closing bracket. -/
def parseElements : Nat → List Char → Option (List JSON × List Char)
  | 0, _ => none
  | fuel + 1, cs =>
    match parseValue fuel cs with
    | none => none
    | some (v, rest) =>
      match skipSpace rest with
      | [] => none
      | c :: rest1 =>
        if c = ',' then (parseElements fuel rest1).map fun (vs, r) => (v :: vs, r)
        else if c = ']' then some ([v], rest1)
        else none
/-- The members of an object up to its closing brace. -/
def parseMembers : Nat → List Char → Option (List (string × JSON) × List Char)
  | 0, _ => none
  | fuel + 1, cs =>
    match skipSpace cs with
    | [] => none
    | q :: rest =>
      if q = '"' then
        match scanString rest .plain none with
        | none => none
        | some (key, rest1) =>
          match skipSpace rest1 with
          | [] => none
          | c :: rest2 =>
            if c = ':' then
              match parseValue fuel rest2 with
              | none => none
              | some (v, rest3) =>
                match skipSpace rest3 with
                | [] => none
                | d :: rest4 =>
                  if d = ',' then
                    (parseMembers fuel rest4).map fun (ms, r) => ((String.mk key, v) :: ms, r)
                  else if d = '}' then some ([(String.mk key, v)], rest4)
                  else none
            else none
      else none
end

/-- The JSON value of a text that `checkValid` accepts: one value with optional
whitespace around it. `none` is a syntax error: by `parseValue_fuel` more fuel gives
the same result. -/
def parseText (text : List Char) : Option JSON :=
  match parseValue (2 * text.length + 2) text with
  | some (v, rest) => if skipSpace rest = [] then some v else none
  | none => none

/-- The JSON value of the bytes that `checkValid` accepts. The scanner works on the
bytes; it takes a byte that is not ASCII inside a string literal only, which `unquote`
then reads as runes, so that it accepts the bytes when it accepts their runes. -/
def parseJSON (data : bytes) : Option JSON := parseText (runes data)

/-- `json.Unmarshal` for a target whose decoding of a valid text is `store`: a text
that `checkValid` rejects is reported before anything is stored. -/
def unmarshalWith {T : Type} (store : JSON → T → T × Option JsonError) (data : bytes)
    (value : T) : T × Option JsonError :=
  match parseJSON data with
  | none => (value, some .invalidSyntax)
  | some j => store j value

/-- The field `Value` of an `UnmarshalTypeError` for a JSON value. -/
def JSON.kind : JSON → string
  | .null => "null"
  | .bool _ => "bool"
  | .number _ => "number"
  | .str _ => "string"
  | .array _ => "array"
  | .object _ => "object"

/-! ## Package bytes: `bytes.Buffer` -/

/-- A `bytes.Buffer`, by its content. -/
structure Buffer where
  buf : bytes

/-- The zero value of `bytes.Buffer`, an empty buffer. -/
def Buffer.empty : Buffer := ⟨[]⟩

/-- `WriteByte` appends one byte, given here as a character of the ASCII range. -/
def Buffer.WriteByte (b : Buffer) (c : Char) : Buffer := ⟨b.buf ++ [c.toNat.toUInt8]⟩

/-- `WriteString` appends the bytes of a string. -/
def Buffer.WriteString (b : Buffer) (s : string) : Buffer := ⟨b.buf ++ bytesOf s⟩

/-- `Bytes` is the content of the buffer. -/
def Buffer.Bytes (b : Buffer) : bytes := b.buf

/-! ## The program: src/logfusc.go -/

/-- The constant `redactionTmpl`. -/
def redactionTmpl : string := "logfusc.Secret[%T]{REDACTED}"

/-- The type `Secret[T any]`: a struct with the single unexported field `value`. -/
structure Secret (T : Type) where
  value : T
deriving DecidableEq

/-- `NewSecret` returns a new Secret containing an instance of `T`. -/
def NewSecret {T : Type} (value : T) : Secret T := ⟨value⟩

/-- `String` is `fmt.Sprintf(redactionTmpl, s.value)`. The result is an option because
the model of `Sprintf` is; `String_eq` shows that it is always `some`. -/
def Secret.String {T : Type} [GoType T] (s : Secret T) : Option string :=
  Sprintf (anyValue T) redactionTmpl [s.value]

/-- `GoString` returns `s.String()`. -/
def Secret.GoString {T : Type} [GoType T] (s : Secret T) : Option string :=
  s.String

/-- The type `UnmarshalError[T any]`: a struct with the single field `intendedTarget`. -/
structure UnmarshalError (T : Type) where
  intendedTarget : T
deriving DecidableEq

/-- A value of the interface type `error` as this package and its decoder produce it:
a `*UnmarshalError[T]` or an error of package encoding/json. The nil error is `none`
of `Option (Error T)`. -/
inductive Error (T : Type)
  | unmarshalError (e : UnmarshalError T)
  | json (e : JsonError)
deriving DecidableEq

/-- `MarshalJSON` writes a double quote, `s.String()` and a double quote to a buffer and
returns its bytes with a nil error. -/
def Secret.MarshalJSON {T : Type} [GoType T] (s : Secret T) :
    Option (bytes × Option (Error T)) :=
  s.String.map fun str =>
    let buf := Buffer.empty
    let buf := buf.WriteByte '"'
    let buf := buf.WriteString str
    let buf := buf.WriteByte '"'
    (buf.Bytes, none)

/-- The constant `unmarshalErrorTmpl`. -/
def unmarshalErrorTmpl : string :=
  "failed to unmarshal Secret[%T] due to malformed JSON; details redacted to avoid leaking wrapped %[1]T"

/-- `Error` is `fmt.Sprintf(unmarshalErrorTmpl, e.intendedTarget)`. -/
def UnmarshalError.Error {T : Type} [GoType T] (e : UnmarshalError T) : Option string :=
  Sprintf (anyValue T) unmarshalErrorTmpl [e.intendedTarget]

/-- `UnmarshalJSON`, a method of `*Secret[T]`: the receiver after the call and the error
returned. The bytes `null`, tested by `string(data) == "null"`, leave the receiver
alone; otherwise `data` is decoded into the
variable `value`, declared by `var value T`, which goes into the error when decoding
fails and into the receiver when it succeeds. -/
def Secret.UnmarshalJSON {T : Type} [GoType T] [JSONTarget T] (s : Secret T) (data : bytes) :
    Secret T × Option (Error T) :=
  if data = bytesOf "null" then (s, none)
  else
    let value : T := GoType.zero
    match JSONTarget.unmarshal data value with
    | (value, some _) => (s, some (.unmarshalError ⟨value⟩))
    | (value, none) => (NewSecret value, none)

/-- `Expose` returns the wrapped secret. -/
def Secret.Expose {T : Type} (s : Secret T) : T := s.value

/-- The call `err.Error()` on an error that is a `*UnmarshalError[T]`; `none` for an
error of the decoder, whose messages are not modelled. -/
def Error.message {T : Type} [GoType T] : Error T → Option string
  | .unmarshalError e => e.Error
  | .json _ => none

/-! ## Package strconv: quoting -/

/-- `strconv.IsPrint`. Up to `U+00FF` the function decides by the comparisons below;
beyond, it searches tables of the Unicode standard, which are the parameter `tables`. -/
def IsPrint (tables : Char → Bool) (r : Char) : Bool :=
  if r.toNat ≤ 0xFF then
    (0x20 ≤ r.toNat && r.toNat ≤ 0x7E) || (0xA1 ≤ r.toNat && r.toNat ≠ 0xAD)
  else tables r

/-- The hexadecimal digit of a number below sixteen. -/
def hexDigit (upper : Bool) (n : Nat) : Char :=
  (if upper then "0123456789ABCDEF" else "0123456789abcdef").toList.getD n '0'

/-- The last `width` hexadecimal digits of a number, most significant first. -/
def hexFixed (upper : Bool) (width : Nat) (n : Nat) : List Char :=
  (List.range width).reverse.map fun i => hexDigit upper (n / 16 ^ i % 16)

/-- `appendEscapedRune` of package strconv, without the graphic-only mode. -/
def appendEscapedRune (tables : Char → Bool) (r : Char) (quote : Char) (asciiOnly : Bool) :
    List Char :=
  if r = quote ∨ r = '\\' then ['\\', r]
  else if asciiOnly ∧ r.toNat < 0x80 ∧ IsPrint tables r then [r]
  else if ¬ asciiOnly ∧ IsPrint tables r then [r]
  else if r.toNat = 7 then ['\\', 'a']
  else if r.toNat = 8 then ['\\', 'b']
  else if r.toNat = 12 then ['\\', 'f']
  else if r = '\n' then ['\\', 'n']
  else if r = '\r' then ['\\', 'r']
  else if r = '\t' then ['\\', 't']
  else if r.toNat = 11 then ['\\', 'v']
  else if r.toNat < 0x20 ∨ r.toNat = 0x7F then '\\' :: 'x' :: hexFixed false 2 r.toNat
  else if r.toNat < 0x10000 then '\\' :: 'u' :: hexFixed false 4 r.toNat
  else '\\' :: 'U' :: hexFixed false 8 r.toNat

/-- `strconv.Quote` and, with `asciiOnly`, `strconv.QuoteToASCII`: a double-quoted Go
string literal of `s`. -/
def quoteWith (tables : Char → Bool) (asciiOnly : Bool) (s : string) : string :=
  String.mk ('"' :: s.toList.flatMap (fun r => appendEscapedRune tables r '"' asciiOnly) ++ ['"'])

/-- `strconv.Quote`. -/
def Quote (tables : Char → Bool) (s : string) : string := quoteWith tables false s

/-- `strconv.QuoteRune` and, with `asciiOnly`, `strconv.QuoteRuneToASCII`. -/
def quoteRuneWith (tables : Char → Bool) (asciiOnly : Bool) (r : Char) : string :=
  String.mk ('\'' :: appendEscapedRune tables r '\'' asciiOnly ++ ['\''])

/-- `strconv.CanBackquote`: no control character but the tab, no backquote, no `DEL`
and no byte order mark. -/
def CanBackquote (s : string) : Bool :=
  s.toList.all fun r =>
    if r.toNat < 0x80 then ¬ ((r.toNat < 0x20 ∧ r ≠ '\t') ∨ r.toNat = 0x60 ∨ r.toNat = 0x7F)
    else r.toNat ≠ 0xFEFF

/-! ## Package fmt: verbs -/

/-- What a kind makes of a verb: a text, or the report of a bad verb. -/
inductive Rendering
  | text (s : string)
  | badVerb
deriving DecidableEq, Repr

/-- `fmtS` without width and precision. -/
def fmtS (s : string) : string := s

/-- `fmtQ` without width and precision. -/
def fmtQ (tables : Char → Bool) (f : Flags) (s : string) : string :=
  if f.sharp ∧ CanBackquote s then "`" ++ s ++ "`"
  else quoteWith tables f.plus s

/-- The loop of `fmtSbx` over the bytes of a string; `first` marks the first byte. -/
def hexBytes (f : Flags) (upper : Bool) : List UInt8 → Bool → List Char
  | [], _ => []
  | b :: bs, first =>
    (if f.space ∧ ¬ first then ' ' :: (if f.sharp then ['0', if upper then 'X' else 'x'] else [])
      else [])
    ++ hexDigit upper (b.toNat / 16) :: hexDigit upper (b.toNat % 16) :: hexBytes f upper bs false

/-- `fmtSx` without width and precision: the bytes of the string, each as two
hexadecimal digits. -/
def fmtSx (f : Flags) (upper : Bool) (s : string) : string :=
  if bytesOf s = [] then ""
  else String.mk ((if f.sharp then ['0', if upper then 'X' else 'x'] else [])
    ++ hexBytes f upper (bytesOf s) true)

/-- `(*pp).fmtString`: the verbs of the string kind. -/
def fmtString (tables : Char → Bool) (f : Flags) (verb : Char) (v : string) : Rendering :=
  if verb = 'v' then .text (if f.sharpV then fmtQ tables f v else fmtS v)
  else if verb = 's' then .text (fmtS v)
  else if verb = 'x' then .text (fmtSx f false v)
  else if verb = 'X' then .text (fmtSx f true v)
  else if verb = 'q' then .text (fmtQ tables f v)
  else .badVerb

/-- `(*pp).fmtBool`: the verbs of the bool kind. -/
def fmtBool (verb : Char) (v : Bool) : Rendering :=
  if verb = 't' ∨ verb = 'v' then .text (if v then "true" else "false") else .badVerb

/-- `(*fmt).fmtInteger` for a signed integer without width and precision: the digits
in the base, then the prefix of the flag `#`, the prefix of the verb `O` and the sign. -/
def fmtIntegerBase (f : Flags) (base : Nat) (verb : Char) (upper : Bool) (v : Int) : string :=
  let digits := (Nat.toDigits base v.natAbs).map (fun c => if upper then c.toUpper else c)
  let sharp : List Char :=
    if f.sharp then
      if base = 2 then ['0', 'b']
      else if base = 8 then (if digits.head? = some '0' then [] else ['0'])
      else if base = 16 then ['0', if upper then 'X' else 'x']
      else []
    else []
  let octal : List Char := if verb = 'O' then ['0', 'o'] else []
  let sign : List Char := if v < 0 then ['-'] else if f.plus then ['+'] else if f.space then [' '] else []
  String.mk (sign ++ octal ++ sharp ++ digits)

/-- The conversion `uint64(v)` of an `int`. -/
def toUint64 (v : Int) : Nat := (v % 2 ^ 64).toNat

/-- `(*fmt).fmtUnicode` without precision: `U+` and at least four hexadecimal digits,
and with the flag `#` the character itself when it is printable. -/
def fmtUnicode (tables : Char → Bool) (f : Flags) (u : Nat) : string :=
  let digits := (Nat.toDigits 16 u).map Char.toUpper
  let padded := List.replicate (4 - digits.length) '0' ++ digits
  let quoted : List Char :=
    if f.sharp ∧ u.isValidChar ∧ IsPrint tables (runeOf u) then [' ', '\'', runeOf u, '\''] else []
  String.mk ('U' :: '+' :: padded ++ quoted)

/-- `(*pp).fmtInteger`: the verbs of a signed integer kind. -/
def fmtInteger (tables : Char → Bool) (f : Flags) (verb : Char) (v : Int) : Rendering :=
  if verb = 'v' ∨ verb = 'd' then .text (fmtIntegerBase f 10 verb false v)
  else if verb = 'b' then .text (fmtIntegerBase f 2 verb false v)
  else if verb = 'o' ∨ verb = 'O' then .text (fmtIntegerBase f 8 verb false v)
  else if verb = 'x' then .text (fmtIntegerBase f 16 verb false v)
  else if verb = 'X' then .text (fmtIntegerBase f 16 verb true v)
  else if verb = 'c' then .text (runeOf (toUint64 v)).toString
  else if verb = 'q' then .text (quoteRuneWith tables f.plus (runeOf (toUint64 v)))
  else if verb = 'U' then .text (fmtUnicode tables f (toUint64 v))
  else .badVerb

/-- What package fmt needs of `T` to print a `Secret[T]` by reflection. -/
class FmtValue (T : Type) where
  /-- The name of the type `Secret[T]`, `reflect.TypeOf(Secret[T]{}).String()`. -/
  secretType : string
  /-- `printValue` on the field `value`: the field is unexported, so no method of `T` is
  called and the kind of `T` alone decides what the verb prints. -/
  printValue : (Char → Bool) → Flags → Char → T → Rendering

/-- What `printValue` writes before the field of a `Secret[T]`: the type with the flag
`#` of the verb `v`, the brace, and the field name with the flags `+` and `#` of `v`. -/
def Secret.structOpen (T : Type) [FmtValue T] (f : Flags) : string :=
  (if f.sharpV then FmtValue.secretType T else "") ++ "\x7b"
    ++ (if f.plusV ∨ f.sharpV then "value:" else "")

/-- `printArg(arg, 'v')` as `badVerb` calls it on a `Secret[T]`: the printer is in its
error state, `handleMethods` declines, and `printValue` walks the struct. -/
def Secret.printErroring {T : Type} [FmtValue T] (tables : Char → Bool) (s : Secret T)
    (f : Flags) : Option string :=
  match FmtValue.printValue tables f 'v' s.value with
  | .text t => some (Secret.structOpen T f ++ t ++ "\x7d")
  | .badVerb => none

/-- `badVerb` while a `Secret[T]` is printed: `%!`, the verb, and between parentheses
the type of the operand, `=`, and the operand under the verb `v`. With `arg`, the operand
is the secret in `p.arg`, printed by `printArg`; that is the case of the verb `p`.
Without, `p.arg` is nil and the operand is the field in `p.value`, printed by
`printValue` at depth 0; that is the case of a verb that the kind of the field rejects,
for `printValue` sets `p.arg = nil` and `p.value = value` before it looks at the kind.
The type of the field as reflection has it is what the verb `T` prints for the wrapped
value. -/
def Secret.badVerb {T : Type} [GoType T] [FmtValue T] (tables : Char → Bool) (s : Secret T)
    (f : Flags) (verb : Char) (arg : Bool) : Option string :=
  if arg then
    (Secret.printErroring tables s f).map fun inner =>
      "%!" ++ verb.toString ++ "(" ++ FmtValue.secretType T ++ "=" ++ inner ++ ")"
  else
    match FmtValue.printValue tables f 'v' s.value with
    | .text t =>
      some ("%!" ++ verb.toString ++ "(" ++ GoType.dynamicType s.value ++ "=" ++ t ++ ")")
    | .badVerb => none

/-- `printValue` on a `Secret[T]` at depth 0: the struct between braces. The field is
printed by `printValue` at depth 1, and a verb that the kind of the field rejects is
reported there by `badVerb`, inside the braces, on the field. -/
def Secret.printValue {T : Type} [GoType T] [FmtValue T] (tables : Char → Bool) (s : Secret T)
    (f : Flags) (verb : Char) : Option string :=
  match FmtValue.printValue tables f verb s.value with
  | .text t => some (Secret.structOpen T f ++ t ++ "\x7d")
  | .badVerb =>
    (Secret.badVerb tables s f verb false).map fun bad =>
      Secret.structOpen T f ++ bad ++ "\x7d"

/-- `printArg` on a `Secret[T]` for a verb other than `T`: `p` is a bad verb for a
struct, reported with the secret in `p.arg`; `handleMethods` finds no `Formatter`, calls `GoString` for `%#v` and `String`
for the verbs `v`, `s`, `x`, `X` and `q`; every other verb is left to `printValue`. -/
def Secret.printVerb {T : Type} [GoType T] [FmtValue T] (tables : Char → Bool) (s : Secret T)
    (f : Flags) (verb : Char) : Option string :=
  if verb = 'p' then Secret.badVerb tables s f verb true
  else if f.sharpV then s.GoString.map fmtS
  else if verb = 'v' ∨ verb = 's' ∨ verb = 'x' ∨ verb = 'X' ∨ verb = 'q' then
    s.String.bind fun str =>
      match fmtString tables f verb str with
      | .text t => some t
      | .badVerb => none
  else Secret.printValue tables s f verb

/-- The printer for a `Secret[T]` passed as `any`. -/
def secretOperand (T : Type) [GoType T] [FmtValue T] (tables : Char → Bool) :
    Printer (Secret T) :=
  ⟨fun _ => FmtValue.secretType T, Secret.printVerb tables⟩

/-! ## Go types used as the type argument `T` -/

/-! ### `string` -/

/-- Decoding a JSON value into a `string`: a JSON string is stored, `null` changes
nothing, and any other value is an `UnmarshalTypeError` that changes nothing. -/
def storeString (j : JSON) (v : string) : string × Option JsonError :=
  match j with
  | .str s => (s, none)
  | .null => (v, none)
  | other => (v, some (.unmarshalType other.kind "string"))

instance : GoType string := ⟨"", "string", fun _ => "string"⟩

instance : JSONTarget string := ⟨unmarshalWith storeString⟩

instance : FmtValue string := ⟨"logfusc.Secret[string]", fmtString⟩

/-! ### `bool` -/

/-- Decoding a JSON value into a `bool`. -/
def storeBool (j : JSON) (v : Bool) : Bool × Option JsonError :=
  match j with
  | .bool b => (b, none)
  | .null => (v, none)
  | other => (v, some (.unmarshalType other.kind "bool"))

instance : GoType Bool := ⟨false, "bool", fun _ => "bool"⟩

instance : JSONTarget Bool := ⟨unmarshalWith storeBool⟩

instance : FmtValue Bool := ⟨"logfusc.Secret[bool]", fun _ _ verb v => fmtBool verb v⟩

/-! ### `int`, of 64 bits -/

/-- The value of a run of decimal digits. -/
def digitsValue (ds : List Char) : Nat :=
  ds.foldl (fun n c => n * 10 + (c.toNat - '0'.toNat)) 0

/-- `strconv.ParseInt(lit, 10, 64)` on a JSON number literal: the literal has to be an
integer, without fraction and exponent, in the range of `int64`. -/
def parseInt64 (lit : string) : Option Int :=
  let (neg, ds) := match lit.toList with
    | '-' :: r => (true, r)
    | r => (false, r)
  if ds = [] ∨ ¬ ds.all Char.isDigit then none
  else
    let n : Int := if neg then - (digitsValue ds : Int) else (digitsValue ds : Int)
    if - 2 ^ 63 ≤ n ∧ n < 2 ^ 63 then some n else none

/-- Decoding a JSON value into an `int`. -/
def storeInt (j : JSON) (v : Int) : Int × Option JsonError :=
  match j with
  | .number lit =>
    match parseInt64 lit with
    | some n => (n, none)
    | none => (v, some (.unmarshalType ("number " ++ lit) "int"))
  | .null => (v, none)
  | other => (v, some (.unmarshalType other.kind "int"))

instance : GoType Int := ⟨0, "int", fun _ => "int"⟩

instance : JSONTarget Int := ⟨unmarshalWith storeInt⟩

instance : FmtValue Int := ⟨"logfusc.Secret[int]", fmtInteger⟩

/-! ### A struct type: `type Credentials struct { User string; Pin int }` in package main -/

/-- The struct type `Credentials`. -/
structure Credentials where
  User : string
  Pin : Int
deriving DecidableEq, Repr

/-- Simple case folding of a rune as far as it meets the ASCII letters: an upper-case
ASCII letter folds to its lower-case letter, and so do the long s to `s` and the Kelvin
sign to `k`. -/
def foldRune (c : Char) : Char :=
  if c.isUpper then c.toLower
  else if c.toNat = 0x17F then 's'
  else if c.toNat = 0x212A then 'k'
  else c

/-- A key of a JSON object names the field `field`, whose name is made of ASCII
letters: the names are equal, or equal under case folding. -/
def keyMatches (key field : string) : Bool :=
  key.toList.map foldRune = field.toList.map foldRune

/-- Decoding the members of a JSON object into a `Credentials`, in the order of the
text: a member that names a field is decoded into it, any other member is skipped, and
of the errors the first is kept while decoding goes on. -/
def storeMembers : List (string × JSON) → Credentials → Option JsonError →
    Credentials × Option JsonError
  | [], v, saved => (v, saved)
  | (key, j) :: rest, v, saved =>
    if keyMatches key "User" then
      let (user, err) := storeString j v.User
      storeMembers rest { v with User := user } (saved.orElse fun _ => err)
    else if keyMatches key "Pin" then
      let (pin, err) := storeInt j v.Pin
      storeMembers rest { v with Pin := pin } (saved.orElse fun _ => err)
    else storeMembers rest v saved

/-- Decoding a JSON value into a `Credentials`. -/
def storeCredentials (j : JSON) (v : Credentials) : Credentials × Option JsonError :=
  match j with
  | .object members => storeMembers members v none
  | .null => (v, none)
  | other => (v, some (.unmarshalType other.kind "main.Credentials"))

instance : GoType Credentials := ⟨⟨"", 0⟩, "main.Credentials", fun _ => "main.Credentials"⟩

instance : JSONTarget Credentials := ⟨unmarshalWith storeCredentials⟩

/-! ### A struct type without a name and with a field tag -/

/-- The type written `struct { Admin bool` with the tag `json:"admin"` `}`. -/
structure TaggedStruct where
  Admin : Bool
deriving DecidableEq, Repr

/-- The name that package reflect gives the type: the tag is quoted in it. -/
def TaggedStruct.typeName : string := "struct \x7b Admin bool \"json:\\\"admin\\\"\" \x7d"

instance : GoType TaggedStruct := ⟨⟨false⟩, TaggedStruct.typeName, fun _ => TaggedStruct.typeName⟩

/-! ### The interface type `any` -/

/-- A value of the interface type `any`: nil, or a value of one of the dynamic types
`int`, `string`, `bool`, `float64`, `[]interface {}` and `map[string]interface {}`. A
`float64` is given by a number literal that rounds to it, and a map by its keys in the
order in which they were first set. -/
inductive GoAny
  | nil
  | int (v : Int)
  | string (v : Logfusc.string)
  | bool (v : Bool)
  | float64 (lit : Logfusc.string)
  | slice (elems : List GoAny)
  | map (members : List (Logfusc.string × GoAny))

/-- `reflect.TypeOf(v).String()` for a value of type `any`, and what the verb `T`
prints for the nil interface. -/
def GoAny.dynamicType : GoAny → Logfusc.string
  | .nil => "<nil>"
  | .int _ => "int"
  | .string _ => "string"
  | .bool _ => "bool"
  | .float64 _ => "float64"
  | .slice _ => "[]interface \x7b\x7d"
  | .map _ => "map[string]interface \x7b\x7d"

instance : GoType GoAny := ⟨.nil, "interface \x7b\x7d", GoAny.dynamicType⟩

/-- The digits of a number literal without its sign and point, and the power of ten
that scales them: the exponent of the literal less the length of its fraction. -/
def decimalOf (lit : Logfusc.string) : Nat × Int :=
  let cs := match lit.toList with
    | '-' :: r => r
    | r => r
  let (int, cs1) := takeDigits cs
  let (frac, cs2) := match cs1 with
    | '.' :: r => takeDigits r
    | r => ([], r)
  let exp : Int := match cs2 with
    | _ :: '-' :: r => - (digitsValue r : Int)
    | _ :: '+' :: r => (digitsValue r : Int)
    | _ :: r => (digitsValue r : Int)
    | [] => 0
  (digitsValue (int ++ frac), exp - frac.length)

/-- `strconv.ParseFloat(lit, 64)` reports a range error: the literal rounds to infinity,
which it does from the midpoint between the largest `float64` and `2 ^ 1024` on. -/
def overflowsFloat64 (lit : Logfusc.string) : Bool :=
  let (digits, scale) := decimalOf lit
  if scale ≥ 0 then digits * 10 ^ scale.toNat ≥ 2 ^ 1024 - 2 ^ 970
  else digits ≥ (2 ^ 1024 - 2 ^ 970) * 10 ^ (- scale).toNat

/-- `m[key] = value` on a map. -/
def GoAny.setKey (members : List (Logfusc.string × GoAny)) (key : Logfusc.string) (value : GoAny) :
    List (Logfusc.string × GoAny) :=
  if members.any (fun kv => kv.1 = key) then
    members.map fun kv => if kv.1 = key then (key, value) else kv
  else members ++ [(key, value)]

mutual
/-- `valueInterface`: the Go value that a JSON value decodes to in an empty interface,
and the first error. A number out of the range of `float64` is an
`UnmarshalTypeError` and leaves nil in its place, and decoding goes on. -/
def valueInterface : JSON → GoAny × Option JsonError
  | .null => (.nil, none)
  | .bool b => (.bool b, none)
  | .number lit =>
    if overflowsFloat64 lit then (.nil, some (.unmarshalType ("number " ++ lit) "float64"))
    else (.float64 lit, none)
  | .str s => (.string s, none)
  | .array elems => (.slice (arrayInterface elems).1, (arrayInterface elems).2)
  | .object members =>
    (.map ((objectInterface members []).1), (objectInterface members []).2)
/-- `arrayInterface`: the elements of a JSON array, for a `[]interface {}`. -/
def arrayInterface : List JSON → List GoAny × Option JsonError
  | [] => ([], none)
  | j :: js =>
    ((valueInterface j).1 :: (arrayInterface js).1,
      (valueInterface j).2.orElse fun _ => (arrayInterface js).2)
/-- `objectInterface`: the members of a JSON object set in a `map[string]interface {}`
in the order of the text. -/
def objectInterface : List (Logfusc.string × JSON) → List (Logfusc.string × GoAny) →
    List (Logfusc.string × GoAny) × Option JsonError
  | [], acc => (acc, none)
  | (key, j) :: rest, acc =>
    ((objectInterface rest (GoAny.setKey acc key (valueInterface j).1)).1,
      (valueInterface j).2.orElse fun _ =>
        (objectInterface rest (GoAny.setKey acc key (valueInterface j).1)).2)
end

/-- Decoding a JSON value into a variable of type `any` that holds nil or a value of the
dynamic types above, none of them a pointer: the variable is set to the Go value of the
JSON value, except that a number out of range at the top leaves it as it was. -/
def storeAny (j : JSON) (v : GoAny) : GoAny × Option JsonError :=
  match j with
  | .number lit =>
    if overflowsFloat64 lit then (v, some (.unmarshalType ("number " ++ lit) "float64"))
    else (.float64 lit, none)
  | other => valueInterface other

instance : JSONTarget GoAny := ⟨unmarshalWith storeAny⟩

/-! ### The interface type `error` -/

/-- A value of the interface type `error`: nil, or a `*errors.errorString` as
`errors.New` returns it. -/
inductive GoError
  | nil
  | errorString (s : Logfusc.string)
deriving DecidableEq, Repr

/-- `reflect.TypeOf(v).String()` for a value of type `error`. -/
def GoError.dynamicType : GoError → Logfusc.string
  | .nil => "<nil>"
  | .errorString _ => "*errors.errorString"

/-- Decoding a JSON value into a variable of type `error`. `null` sets the variable to
nil. Into nil nothing else can be stored, as the interface has a method. A variable that
holds a `*errors.errorString` is decoded through the pointer into the struct: it has no
exported field, so an object is accepted with every member skipped, and any other value
is an `UnmarshalTypeError`. -/
def storeError (j : JSON) (v : GoError) : GoError × Option JsonError :=
  match j, v with
  | .null, _ => (.nil, none)
  | other, .nil => (.nil, some (.unmarshalType other.kind "error"))
  | .object _, .errorString s => (.errorString s, none)
  | other, .errorString s => (.errorString s, some (.unmarshalType other.kind "errors.errorString"))

instance : GoType GoError := ⟨.nil, "error", GoError.dynamicType⟩

instance : JSONTarget GoError := ⟨unmarshalWith storeError⟩

/-! ### The pointer type `*unUnmarshalable` of src/logfusc_test.go -/

/-- The type `unUnmarshalable`, a struct without fields. -/
structure unUnmarshalable where
deriving DecidableEq, Repr

/-- The method `UnmarshalJSON` of `*unUnmarshalable`: it returns
`errors.New("unmarshal error")`. -/
def unUnmarshalable.UnmarshalJSON (_u : unUnmarshalable) (_data : bytes) : Option JsonError :=
  some (.custom "unmarshal error")

/-- Decoding a JSON value into a `*unUnmarshalable`, a pointer that is nil (`none`) or
points to a struct. `null` sets the pointer to nil. For any other value the decoder
allocates a struct when the pointer is nil and calls the method `UnmarshalJSON` of the
pointer, which does not look at the bytes it is given. -/
def storePointer (data : bytes) (j : JSON) (v : Option unUnmarshalable) :
    Option unUnmarshalable × Option JsonError :=
  match j with
  | .null => (none, none)
  | _ =>
    let target : unUnmarshalable := v.getD ⟨⟩
    (some target, target.UnmarshalJSON data)

instance : GoType (Option unUnmarshalable) :=
  ⟨none, "*logfusc.unUnmarshalable", fun _ => "*logfusc.unUnmarshalable"⟩

instance : JSONTarget (Option unUnmarshalable) :=
  ⟨fun data => unmarshalWith (storePointer data) data⟩

/-! ## Encodings named by the claims -/

/-- The hexadecimal encoding of the bytes of a string: two digits for each byte of its
UTF-8 form, in the order of the bytes. -/
def hexEncoding (upper : Bool) (s : string) : string :=
  String.mk ((bytesOf s).flatMap fun b =>
    [hexDigit upper (b.toNat / 16), hexDigit upper (b.toNat % 16)])

/-- A character that a double-quoted Go string literal holds as it is: a printable
ASCII character other than the double quote and the backslash. -/
def isPlain (c : Char) : Bool :=
  0x20 ≤ c.toNat && c.toNat ≤ 0x7E && c != '"' && c != '\\'

/-! ## Lemmas on byte slices -/

/-- The bytes of a concatenation are the bytes of its parts. -/
theorem bytesOf_append (a b : string) : bytesOf (a ++ b) = bytesOf a ++ bytesOf b := by
  simp [bytesOf, String.toList, String.data_append]

/-- The bytes of a string given by its characters. -/
theorem bytesOf_mk (l : List Char) : bytesOf (String.mk l) = l.flatMap String.utf8EncodeChar :=
  rfl

/-- An ASCII character is one byte, and the byte decodes to the character. -/
theorem firstByte_ascii (c : Char) (h : c.toNat < 128) :
    String.utf8EncodeChar c = [c.toNat.toUInt8]
    ∧ firstByte c.toNat.toUInt8.toNat = .inl c := by
  constructor
  · have hv : c.val ≤ 0x7f := by
      rw [UInt32.le_def]
      show c.val.toNat ≤ 127
      have : c.toNat = c.val.toNat := rfl
      omega
    simp only [String.utf8EncodeChar, hv, if_true]
    rfl
  · have h1 : c.toNat.toUInt8.toNat = c.toNat := by
      show c.toNat % 256 = c.toNat
      omega
    rw [h1]
    simp only [firstByte, h, if_true]
    congr 1
    exact Char.ofNat_toNat c

/-- Decoding the bytes of an ASCII text gives the text back. -/
theorem runes_ascii (l : List Char) (h : ∀ c ∈ l, c.toNat < 128) :
    runes (l.flatMap String.utf8EncodeChar) = l := by
  unfold runes
  induction l with
  | nil => rfl
  | cons c cs ih =>
    have hc := firstByte_ascii c (h c (List.mem_cons_self _ _))
    rw [List.flatMap_cons, hc.1]
    show runesFrom (c.toNat.toUInt8 :: _) none = _
    rw [runesFrom, hc.2]
    show c :: runesFrom (cs.flatMap String.utf8EncodeChar) none = c :: cs
    rw [ih (fun d hd => h d (List.mem_cons_of_mem _ hd))]

/-- Decoding at work: a text with runes of one to four bytes comes back from its bytes;
a byte that starts no sequence, a sequence cut short by an ASCII byte, and a sequence cut
short by the end are `U+FFFD` for each byte read. -/
theorem runes_examples :
    runes (bytesOf "héllo 😀 日本") = "héllo 😀 日本".toList
    ∧ runes [0x61, 0xFF, 0x62] = ['a', Char.ofNat 0xFFFD, 'b']
    ∧ runes [0xE2, 0x82, 0x63] = [Char.ofNat 0xFFFD, Char.ofNat 0xFFFD, 'c']
    ∧ runes [0xE2, 0x82, 0xAC] = ['€']
    ∧ runes [0xED, 0xA0, 0x80] = [Char.ofNat 0xFFFD, Char.ofNat 0xFFFD, Char.ofNat 0xFFFD]
    ∧ runes [0xC0, 0x80] = [Char.ofNat 0xFFFD, Char.ofNat 0xFFFD]
    ∧ runes [0x61, 0xF0, 0x9F] = ['a', Char.ofNat 0xFFFD, Char.ofNat 0xFFFD] := by
  decide

/-! ## Lemmas on the rendering methods -/

/-- `String` always returns, and returns the template filled with what the verb `T`
prints for the wrapped value. -/
theorem String_eq {T : Type} [GoType T] (s : Secret T) :
    s.String = some ("logfusc.Secret[" ++ GoType.dynamicType s.value ++ "]{REDACTED}") := by
  rfl

/-- `MarshalJSON` always returns: the marker between two double quotes, and a nil
error. -/
theorem MarshalJSON_eq {T : Type} [GoType T] (s : Secret T) :
    s.MarshalJSON = some
      (bytesOf ("\"logfusc.Secret[" ++ GoType.dynamicType s.value ++ "]{REDACTED}\""), none) := by
  simp only [Secret.MarshalJSON, String_eq, Option.map_some', Buffer.empty, Buffer.WriteByte,
    Buffer.WriteString, Buffer.Bytes]
  congr 2
  simp only [bytesOf_append]
  show [] ++ bytesOf "\"" ++ _ ++ bytesOf "\"" = bytesOf ("\"" ++ "logfusc.Secret[") ++ _
    ++ bytesOf ("]{REDACTED}" ++ "\"")
  simp only [bytesOf_append, List.nil_append, List.append_assoc]

set_option maxRecDepth 4096 in
/-- `Error` always returns, and returns the template filled twice with what the verb
`T` prints for the value in `intendedTarget`. -/
theorem Error_eq {T : Type} [GoType T] (e : UnmarshalError T) :
    e.Error = some ("failed to unmarshal Secret[" ++ GoType.dynamicType e.intendedTarget
      ++ "] due to malformed JSON; details redacted to avoid leaking wrapped "
      ++ GoType.dynamicType e.intendedTarget) := by
  have h : e.Error = some ("failed to unmarshal Secret[" ++ (GoType.dynamicType e.intendedTarget
      ++ ("] due to malformed JSON; details redacted to avoid leaking wrapped "
      ++ (GoType.dynamicType e.intendedTarget ++ "")))) := by
    rfl
  rw [h, String.append_empty, String.append_assoc, String.append_assoc]

/-- On bytes other than `null`, `UnmarshalJSON` is decided by the decoder run on a zero
`T`: a failure leaves the receiver alone and returns an `UnmarshalError` holding what
the decoder left in the variable; a success stores the decoded value. -/
theorem UnmarshalJSON_eq {T : Type} [GoType T] [JSONTarget T] (s : Secret T) (data : bytes)
    (h : data ≠ bytesOf "null") :
    s.UnmarshalJSON data =
      match JSONTarget.unmarshal data (GoType.zero : T) with
      | (value, some _) => (s, some (.unmarshalError ⟨value⟩))
      | (value, none) => (NewSecret value, none) := by
  simp [Secret.UnmarshalJSON, h]

/-! ## The claims -/

/-- C1: for every type `T` and value `v`, `NewSecret(v).String()` and
`NewSecret(v).GoString()` both return exactly the redaction marker
`logfusc.Secret[<name>]{REDACTED}`, where `<name>` is what the verb `T` of package fmt
prints for the wrapped value; and `GoString()` equals `String()` for every secret. -/
theorem string_and_gostring_return_marker {T : Type} [GoType T] (v : T) :
    (NewSecret v).String = some ("logfusc.Secret[" ++ GoType.dynamicType v ++ "]{REDACTED}")
    ∧ (NewSecret v).GoString
        = some ("logfusc.Secret[" ++ GoType.dynamicType v ++ "]{REDACTED}")
    ∧ ∀ s : Secret T, s.GoString = s.String :=
  ⟨String_eq (NewSecret v), String_eq (NewSecret v), fun _ => rfl⟩

/-- C2, as stated, fails for an interface type: two values of type `any` with different
dynamic types, the `int` 42 and the `string` "x", are rendered differently by `String`,
`GoString` and `MarshalJSON`. -/
theorem any_rendering_differs_by_dynamic_type :
    (NewSecret (GoAny.int 42)).String = some "logfusc.Secret[int]{REDACTED}"
    ∧ (NewSecret (GoAny.string "x")).String = some "logfusc.Secret[string]{REDACTED}"
    ∧ (NewSecret (GoAny.int 42)).String ≠ (NewSecret (GoAny.string "x")).String
    ∧ (NewSecret (GoAny.int 42)).GoString ≠ (NewSecret (GoAny.string "x")).GoString
    ∧ (NewSecret (GoAny.int 42)).MarshalJSON ≠ (NewSecret (GoAny.string "x")).MarshalJSON := by
  refine ⟨by decide, by decide, by decide, by decide, ?_⟩
  rw [MarshalJSON_eq, MarshalJSON_eq]
  show some (bytesOf "\"logfusc.Secret[int]{REDACTED}\"", none)
    ≠ some (bytesOf "\"logfusc.Secret[string]{REDACTED}\"", none)
  simp only [ne_eq, Option.some.injEq, Prod.mk.injEq, and_true]
  decide

/-- C2, amended: the redaction string embeds only the type name that the verb `T`
prints for the wrapped value, never the value. For every type `T` and every two values
`v`, `w` of `T` for which the verb `T` prints the same name, `String`, `GoString` and
`MarshalJSON` return the same for `NewSecret(v)` and `NewSecret(w)`. -/
theorem rendering_depends_on_type_name_only {T : Type} [GoType T] (v w : T)
    (h : GoType.dynamicType v = GoType.dynamicType w) :
    (NewSecret v).String = (NewSecret w).String
    ∧ (NewSecret v).GoString = (NewSecret w).GoString
    ∧ (NewSecret v).MarshalJSON = (NewSecret w).MarshalJSON := by
  refine ⟨?_, ?_, ?_⟩
  · rw [String_eq, String_eq]; simp [NewSecret, h]
  · show (NewSecret v).String = (NewSecret w).String
    rw [String_eq, String_eq]; simp [NewSecret, h]
  · rw [MarshalJSON_eq, MarshalJSON_eq]; simp [NewSecret, h]

/-- Witness of C2, amended: two secrets of the type `string`. -/
theorem rendering_depends_on_type_name_only_witness :
    GoType.dynamicType ("hunter2" : string) = GoType.dynamicType ("swordfish" : string)
    ∧ (NewSecret ("hunter2" : string)).String = (NewSecret ("swordfish" : string)).String
    ∧ (NewSecret ("hunter2" : string)).GoString = (NewSecret ("swordfish" : string)).GoString
    ∧ (NewSecret ("hunter2" : string)).MarshalJSON
        = (NewSecret ("swordfish" : string)).MarshalJSON :=
  ⟨rfl, rendering_depends_on_type_name_only ("hunter2" : string) "swordfish" rfl⟩

/-- C5: round trip. For every type `T` and value `v`, `NewSecret(v).Expose()` is `v`;
both functions are total. -/
theorem expose_new_secret {T : Type} (v : T) :
    (NewSecret v).value = v ∧ (NewSecret v).Expose = v := ⟨rfl, rfl⟩

/-- C6: for every type `T`, receiver and bytes other than `null`: if the decoder
succeeds on the bytes with the value `v`, then `UnmarshalJSON` returns a nil error and
the receiver exposes exactly `v` afterwards, whatever it held before. -/
theorem unmarshal_stores_decoded_value {T : Type} [GoType T] [JSONTarget T] (s : Secret T)
    (data : bytes) (v : T) (hnull : data ≠ bytesOf "null")
    (hdec : JSONTarget.unmarshal data (GoType.zero : T) = (v, none)) :
    (s.UnmarshalJSON data).2 = none ∧ (s.UnmarshalJSON data).1.Expose = v := by
  rw [UnmarshalJSON_eq s data hnull, hdec]
  exact ⟨rfl, rfl⟩

/-- Witness of C6: the bytes `"password"` into a `Secret[string]` that held "old". -/
theorem unmarshal_stores_decoded_value_witness :
    bytesOf "\"password\"" ≠ bytesOf "null"
    ∧ JSONTarget.unmarshal (bytesOf "\"password\"") (GoType.zero : string) = ("password", none)
    ∧ ((NewSecret ("old" : string)).UnmarshalJSON (bytesOf "\"password\"")).2 = none
    ∧ ((NewSecret ("old" : string)).UnmarshalJSON (bytesOf "\"password\"")).1.Expose
        = "password" :=
  ⟨by decide, by decide,
    unmarshal_stores_decoded_value (NewSecret ("old" : string)) (bytesOf "\"password\"")
      "password" (by decide) (by decide)⟩

/-- C9: for every type `T` and receiver, `UnmarshalJSON` on exactly the bytes `null`
returns a nil error and leaves the receiver as it was; so a `Secret[T]` just declared,
which holds the zero value of `T`, still exposes the zero value afterwards. -/
theorem unmarshal_null_is_noop {T : Type} [GoType T] [JSONTarget T] (s : Secret T) :
    s.UnmarshalJSON (bytesOf "null") = (s, none)
    ∧ ((⟨GoType.zero⟩ : Secret T).UnmarshalJSON (bytesOf "null")).2 = none
    ∧ ((⟨GoType.zero⟩ : Secret T).UnmarshalJSON (bytesOf "null")).1.Expose = GoType.zero := by
  simp [Secret.UnmarshalJSON, Secret.Expose]

/-- C8, at a failing input. The object `{"User":"alice","Pin":"x"}` fails to decode into
a `Credentials` after the field `User` is stored: the error that `UnmarshalJSON` returns
holds `alice` in `intendedTarget`, which is not the zero value. And on the input `0` of
the repository's own test, the error for `*unUnmarshalable` holds the pointer that the
decoder allocated, not the nil pointer. -/
theorem unmarshal_error_keeps_decoded_fields :
    ((NewSecret (GoType.zero : Credentials)).UnmarshalJSON
        (bytesOf "\x7b\"User\":\"alice\",\"Pin\":\"x\"\x7d")).2
      = some (.unmarshalError ⟨⟨"alice", 0⟩⟩)
    ∧ (⟨"alice", 0⟩ : Credentials) ≠ GoType.zero
    ∧ ((NewSecret (some ⟨⟩ : Option unUnmarshalable)).UnmarshalJSON (bytesOf "0")).2
      = some (.unmarshalError ⟨some ⟨⟩⟩)
    ∧ (some ⟨⟩ : Option unUnmarshalable) ≠ GoType.zero := by
  refine ⟨by decide, by decide, by decide, by decide⟩

/-- C4, at a failing input. For the struct type without a name whose field carries the
tag `json:"admin"`, the name that the verb `T` prints contains double quotes and
backslashes; `MarshalJSON` copies it between two double quotes without escaping. The
JSON string in the bytes it returns ends at the first quote of the name, after `bool `,
with text left over behind it: the bytes are not a JSON text, let alone a JSON string
whose content is the marker. -/
theorem marshal_json_does_not_escape :
    (NewSecret (⟨true⟩ : TaggedStruct)).String
      = some "logfusc.Secret[struct \x7b Admin bool \"json:\\\"admin\\\"\" \x7d]{REDACTED}"
    ∧ (NewSecret (⟨true⟩ : TaggedStruct)).MarshalJSON
      = some (bytesOf
          "\"logfusc.Secret[struct \x7b Admin bool \"json:\\\"admin\\\"\" \x7d]{REDACTED}\"",
          none)
    ∧ runes (bytesOf
          "\"logfusc.Secret[struct \x7b Admin bool \"json:\\\"admin\\\"\" \x7d]{REDACTED}\"")
      = ("\"logfusc.Secret[struct \x7b Admin bool \"json:\\\"admin\\\"\" \x7d]"
          ++ "{REDACTED}\"").toList
    ∧ scanString
        ("logfusc.Secret[struct \x7b Admin bool \"json:\\\"admin\\\"\" \x7d]{REDACTED}\"").toList
        .plain none
      = some ("logfusc.Secret[struct \x7b Admin bool ".toList,
          "json:\\\"admin\\\"\" \x7d]{REDACTED}\"".toList)
    ∧ parseJSON
        (bytesOf "\"logfusc.Secret[struct \x7b Admin bool \"json:\\\"admin\\\"\" \x7d]{REDACTED}\"")
      = none := by
  refine ⟨by decide, ?_, by decide, by decide, by rfl⟩
  rw [MarshalJSON_eq]
  decide

/-! ## Lemmas on package fmt -/

/-- Without flags, the loop of `fmtSbx` writes two digits for each byte. -/
theorem hexBytes_clear (upper : Bool) (data : bytes) (first : Bool) :
    hexBytes Flags.clear upper data first
      = data.flatMap fun b => [hexDigit upper (b.toNat / 16), hexDigit upper (b.toNat % 16)] := by
  induction data generalizing first with
  | nil => rfl
  | cons b bs ih =>
    rw [hexBytes, ih false]
    simp [show Flags.clear.space = false from rfl]

/-- Without flags, `fmtSx` is the hexadecimal encoding of the bytes. -/
theorem fmtSx_clear (upper : Bool) (s : string) :
    fmtSx Flags.clear upper s = hexEncoding upper s := by
  unfold fmtSx hexEncoding
  generalize bytesOf s = data
  cases data with
  | nil => rfl
  | cons b bs => simp [hexBytes_clear, show Flags.clear.sharp = false from rfl]

/-- A plain character is copied by `appendEscapedRune`. -/
theorem appendEscapedRune_plain (tables : Char → Bool) (c : Char) (h : isPlain c = true) :
    appendEscapedRune tables c '"' false = [c] := by
  simp only [isPlain, Bool.and_eq_true, decide_eq_true_eq, bne_iff_ne, ne_eq] at h
  obtain ⟨⟨⟨h1, h2⟩, h3⟩, h4⟩ := h
  have hp : IsPrint tables c = true := by
    unfold IsPrint
    have : c.toNat ≤ 0xFF := by omega
    simp [this, h1, h2]
  simp [appendEscapedRune, h3, h4, hp]

/-- `Quote` puts a string of plain characters between two double quotes. -/
theorem Quote_plain (tables : Char → Bool) (s : string)
    (h : ∀ c ∈ s.toList, isPlain c = true) : Quote tables s = "\"" ++ s ++ "\"" := by
  have hflat : ∀ l : List Char, (∀ c ∈ l, isPlain c = true) →
      l.flatMap (fun r => appendEscapedRune tables r '"' false) = l := by
    intro l hl
    induction l with
    | nil => rfl
    | cons c cs ih =>
      have hc := appendEscapedRune_plain tables c (hl c (List.mem_cons_self _ _))
      have hcs := ih (fun d hd => hl d (List.mem_cons_of_mem _ hd))
      simp [List.flatMap_cons, hc, hcs]
  have hs := hflat s.data h
  apply String.ext
  simp [Quote, quoteWith, hs, String.data_append]

/-- The directive `%s` on one operand. -/
theorem Sprintf_s {α : Type} (p : Printer α) (x : α) :
    Sprintf p "%s" [x] = p.printArg x Flags.clear 's' := by
  cases h : p.printArg x Flags.clear 's' <;>
    simp [Sprintf, doPrintf, verbStep, Flags.set, Flags.forVerb, finish, h]

/-- The directive `%q` on one operand. -/
theorem Sprintf_q {α : Type} (p : Printer α) (x : α) :
    Sprintf p "%q" [x] = p.printArg x Flags.clear 'q' := by
  cases h : p.printArg x Flags.clear 'q' <;>
    simp [Sprintf, doPrintf, verbStep, Flags.set, Flags.forVerb, finish, h]

/-- The directive `%x` on one operand. -/
theorem Sprintf_x {α : Type} (p : Printer α) (x : α) :
    Sprintf p "%x" [x] = p.printArg x Flags.clear 'x' := by
  cases h : p.printArg x Flags.clear 'x' <;>
    simp [Sprintf, doPrintf, verbStep, Flags.set, Flags.forVerb, finish, h]

/-- The directive `%X` on one operand. -/
theorem Sprintf_X {α : Type} (p : Printer α) (x : α) :
    Sprintf p "%X" [x] = p.printArg x Flags.clear 'X' := by
  cases h : p.printArg x Flags.clear 'X' <;>
    simp [Sprintf, doPrintf, verbStep, Flags.set, Flags.forVerb, finish, h]

/-- The directive `%v` on one operand. -/
theorem Sprintf_v {α : Type} (p : Printer α) (x : α) :
    Sprintf p "%v" [x] = p.printArg x Flags.clear 'v' := by
  have hf : Flags.clear.forVerb 'v' = Flags.clear := rfl
  cases h : p.printArg x Flags.clear 'v' <;>
    simp [Sprintf, doPrintf, verbStep, Flags.set, hf, finish, h]

/-- The directive `%+v` on one operand: the flag `+` becomes `plusV`. -/
theorem Sprintf_plus_v {α : Type} (p : Printer α) (x : α) :
    Sprintf p "%+v" [x] = p.printArg x { Flags.clear with plusV := true } 'v' := by
  have hf : Flags.forVerb { Flags.clear with plus := true } 'v'
      = { Flags.clear with plusV := true } := rfl
  cases h : p.printArg x { Flags.clear with plusV := true } 'v' <;>
    simp [Sprintf, doPrintf, verbStep, Flags.set, hf, finish, h]

/-- The directive `%#v` on one operand: the flag `#` becomes `sharpV`. -/
theorem Sprintf_sharp_v {α : Type} (p : Printer α) (x : α) :
    Sprintf p "%#v" [x] = p.printArg x { Flags.clear with sharpV := true } 'v' := by
  have hf : Flags.forVerb { Flags.clear with sharp := true } 'v'
      = { Flags.clear with sharpV := true } := rfl
  cases h : p.printArg x { Flags.clear with sharpV := true } 'v' <;>
    simp [Sprintf, doPrintf, verbStep, Flags.set, hf, finish, h]

/-- C10: for every secret `s` with marker `m = s.String()`, package fmt prints `s` with
`%s`, `%v`, `%+v` and `%#v` as exactly `m`, unquoted; with `%q` as the double-quoted
`m`, the Go string literal that `strconv.Quote` makes of it, which is `m` between two
double quotes when the type name has only plain characters; with `%x` and `%X` as the
lower-case and upper-case hexadecimal encoding of the bytes of `m`. Each of the seven
outputs is computed from the marker, and so none renders the wrapped value. -/
theorem fmt_string_verbs_print_marker {T : Type} [GoType T] [FmtValue T]
    (tables : Char → Bool) (s : Secret T) :
    s.String = some ("logfusc.Secret[" ++ GoType.dynamicType s.value ++ "]{REDACTED}")
    ∧ Sprintf (secretOperand T tables) "%s" [s] = s.String
    ∧ Sprintf (secretOperand T tables) "%v" [s] = s.String
    ∧ Sprintf (secretOperand T tables) "%+v" [s] = s.String
    ∧ Sprintf (secretOperand T tables) "%#v" [s] = s.String
    ∧ Sprintf (secretOperand T tables) "%q" [s] = s.String.map (Quote tables)
    ∧ Sprintf (secretOperand T tables) "%x" [s] = s.String.map (hexEncoding false)
    ∧ Sprintf (secretOperand T tables) "%X" [s] = s.String.map (hexEncoding true)
    ∧ ((∀ c ∈ (GoType.dynamicType s.value).toList, isPlain c = true) →
        Sprintf (secretOperand T tables) "%q" [s]
          = some ("\"logfusc.Secret[" ++ GoType.dynamicType s.value ++ "]{REDACTED}\"")) := by
  have hq : Sprintf (secretOperand T tables) "%q" [s] = s.String.map (Quote tables) := by
    rw [Sprintf_q, String_eq]
    simp [Printer.printArg, secretOperand, Secret.printVerb, String_eq, fmtString, fmtQ,
      Flags.clear, Quote]
  refine ⟨String_eq s, ?_, ?_, ?_, ?_, hq, ?_, ?_, ?_⟩
  · rw [Sprintf_s, String_eq]
    simp [Printer.printArg, secretOperand, Secret.printVerb, String_eq, fmtString, fmtS,
      Flags.clear]
  · rw [Sprintf_v, String_eq]
    simp [Printer.printArg, secretOperand, Secret.printVerb, String_eq, fmtString, fmtS,
      Flags.clear]
  · rw [Sprintf_plus_v, String_eq]
    simp [Printer.printArg, secretOperand, Secret.printVerb, String_eq, fmtString, fmtS,
      Flags.clear]
  · rw [Sprintf_sharp_v, String_eq]
    simp [Printer.printArg, secretOperand, Secret.printVerb, Secret.GoString, String_eq, fmtS,
      Flags.clear]
  · rw [Sprintf_x, String_eq]
    simp [Printer.printArg, secretOperand, Secret.printVerb, String_eq, fmtString,
      fmtSx_clear, show Flags.clear.sharpV = false from rfl]
  · rw [Sprintf_X, String_eq]
    simp [Printer.printArg, secretOperand, Secret.printVerb, String_eq, fmtString,
      fmtSx_clear, show Flags.clear.sharpV = false from rfl]
  · intro hplain
    rw [hq, String_eq, Option.map_some', Quote_plain]
    · congr 1
      apply String.ext
      simp [String.data_append]
    · intro c hc
      simp only [String.toList, String.data_append, List.mem_append] at hc
      rcases hc with (hc | hc) | hc
      · revert c; decide
      · exact hplain c hc
      · revert c; decide

/-- C3, at failing inputs. The verb `d` is not among the verbs for which package fmt
calls `String`, and `Secret` has no `Format` method: package fmt prints the struct by
reflection, field by field. `Sprintf("%d", NewSecret(42))` is `{42}` and
`Sprintf("%d", NewSecret(7))` is `{7}`; `Sprintf("%t", NewSecret(true))` is `{true}`;
and a verb that the kind of the field rejects prints the field in the report of the bad
verb: `%d` on the string "hunter2" is `{%!d(string=hunter2)}`, and `%+e` on the int 42
is `{%!e(int=+42)}`. -/
theorem fmt_numeric_verb_prints_wrapped_value (tables : Char → Bool) :
    Sprintf (secretOperand Int tables) "%d" [NewSecret (42 : Int)] = some "\x7b42\x7d"
    ∧ Sprintf (secretOperand Int tables) "%d" [NewSecret (7 : Int)] = some "\x7b7\x7d"
    ∧ Sprintf (secretOperand Bool tables) "%t" [NewSecret true] = some "\x7btrue\x7d"
    ∧ Sprintf (secretOperand string tables) "%d" [NewSecret ("hunter2" : string)]
        = some "\x7b%!d(string=hunter2)\x7d"
    ∧ Sprintf (secretOperand Int tables) "%+e" [NewSecret (42 : Int)]
        = some "\x7b%!e(int=+42)\x7d" := by
  refine ⟨by rfl, by rfl, by rfl, by rfl, by rfl⟩

/-! ## Lemmas on JSON strings -/

/-- A string literal of plain characters is scanned up to its closing quote, and its
content is the characters themselves. -/
theorem scanString_plain (l rest : List Char) (h : ∀ c ∈ l, isPlain c = true) :
    scanString (l ++ '"' :: rest) .plain none = some (l, rest) := by
  induction l with
  | nil => simp [scanString, flushSurrogate]
  | cons c cs ih =>
    have hc := h c (List.mem_cons_self _ _)
    simp only [isPlain, Bool.and_eq_true, decide_eq_true_eq, bne_iff_ne, ne_eq] at hc
    obtain ⟨⟨⟨h1, _⟩, h3⟩, h4⟩ := hc
    have h5 : ¬ c.toNat < 32 := by omega
    simp [scanString, h3, h4, h5, ih (fun d hd => h d (List.mem_cons_of_mem _ hd)),
      flushSurrogate]

/-- A text that starts with a double quote is parsed as a string literal. -/
theorem parseValue_quote (fuel : Nat) (rest : List Char) :
    parseValue (fuel + 1) ('"' :: rest)
      = (scanString rest .plain none).map fun (s, r) => (.str (String.mk s), r) := by
  rw [parseValue]
  have h : skipSpace ('"' :: rest) = '"' :: rest := by
    simp [skipSpace, isSpace]
  rw [h]
  rfl

/-- A string of plain characters between two double quotes is a JSON text: the JSON
string with that content. -/
theorem parseJSON_quoted_plain (m : string) (h : ∀ c ∈ m.toList, isPlain c = true) :
    parseJSON (bytesOf ("\"" ++ m ++ "\"")) = some (.str m) := by
  have hdata : ("\"" ++ m ++ "\"").toList = '"' :: (m.toList ++ ['"']) := by
    simp [String.toList, String.data_append]
  have hascii : ∀ c ∈ '"' :: (m.toList ++ ['"']), c.toNat < 128 := by
    intro c hc
    simp only [List.mem_cons, List.mem_append, List.mem_singleton, List.not_mem_nil,
      or_false] at hc
    rcases hc with hc | hc | hc
    · rw [hc]; decide
    · have hp := h c hc
      simp only [isPlain, Bool.and_eq_true, decide_eq_true_eq] at hp
      omega
    · rw [hc]; decide
  have hscan := scanString_plain m.toList [] h
  unfold parseJSON parseText
  rw [show bytesOf ("\"" ++ m ++ "\"")
      = (("\"" ++ m ++ "\"").toList).flatMap String.utf8EncodeChar from rfl, hdata,
    runes_ascii _ hascii,
    show 2 * ('"' :: (m.toList ++ ['"'])).length + 2
      = (2 * ('"' :: (m.toList ++ ['"'])).length + 1) + 1 from rfl, parseValue_quote, hscan]
  simp [skipSpace]

/-- The marker has only plain characters when the type name in it has. -/
theorem marker_plain (name : string) (h : ∀ c ∈ name.toList, isPlain c = true) :
    ∀ c ∈ ("logfusc.Secret[" ++ name ++ "]{REDACTED}").toList, isPlain c = true := by
  intro c hc
  simp only [String.toList, String.data_append, List.mem_append] at hc
  rcases hc with (hc | hc) | hc
  · revert c; decide
  · exact h c hc
  · revert c; decide

/-- For a type name of plain characters, as the names of the predeclared and of the
named types are, `MarshalJSON` returns a JSON string whose content is the marker. -/
theorem MarshalJSON_plain {T : Type} [GoType T] (s : Secret T)
    (h : ∀ c ∈ (GoType.dynamicType s.value).toList, isPlain c = true) :
    ∃ data : bytes, s.MarshalJSON = some (data, none)
      ∧ (parseJSON data).map JSON.kind = some "string"
      ∧ parseJSON data
          = some (.str ("logfusc.Secret[" ++ GoType.dynamicType s.value ++ "]{REDACTED}")) := by
  have hp := parseJSON_quoted_plain _ (marker_plain _ h)
  have hb : "\"logfusc.Secret[" ++ GoType.dynamicType s.value ++ "]{REDACTED}\""
      = "\"" ++ ("logfusc.Secret[" ++ GoType.dynamicType s.value ++ "]{REDACTED}") ++ "\"" := by
    apply String.ext
    simp [String.data_append]
  refine ⟨_, MarshalJSON_eq s, ?_, ?_⟩
  · rw [hb, hp]; rfl
  · rw [hb, hp]

/-! ## The message of an `UnmarshalError[any]` -/

/-- With the decoder of package encoding/json as `storeAny` has it, the message of the
error is not the same for two failing inputs when `T` is `any`: on `1e999`, a number out
of range, the decoder leaves nil in the variable, and on `[1e999]` it leaves a slice, so
that the message names `<nil>` for the one and `[]interface {}` for the other. -/
theorem unmarshal_error_message_of_any :
    (JSONTarget.unmarshal (bytesOf "1e999") (GoType.zero : GoAny)).2 ≠ none
    ∧ (JSONTarget.unmarshal (bytesOf "[1e999]") (GoType.zero : GoAny)).2 ≠ none
    ∧ ((NewSecret GoAny.nil).UnmarshalJSON (bytesOf "1e999")).2.bind Error.message
        = some ("failed to unmarshal Secret[<nil>] due to malformed JSON; "
            ++ "details redacted to avoid leaking wrapped <nil>")
    ∧ ((NewSecret GoAny.nil).UnmarshalJSON (bytesOf "[1e999]")).2.bind Error.message
        = some ("failed to unmarshal Secret[[]interface \x7b\x7d] due to malformed "
            ++ "JSON; details redacted to avoid leaking wrapped []interface \x7b\x7d") := by
  refine ⟨by decide!, by decide!, by decide!, by decide!⟩

/-! ## The tests of src/logfusc_test.go on the model -/

/-- `Test_NewSecret` and `Test_Secret_Expose`. -/
theorem test_new_secret_expose :
    (NewSecret (42 : Int)).value = 42 ∧ (NewSecret (42 : Int)).Expose = 42 := by
  decide

/-- `Test_Secret_String` and `Test_Secret_GoString`, for a string, an int and a struct. -/
theorem test_string_gostring :
    (NewSecret ("foo" : string)).String = some "logfusc.Secret[string]{REDACTED}"
    ∧ (NewSecret (42 : Int)).String = some "logfusc.Secret[int]{REDACTED}"
    ∧ (NewSecret (⟨"bar", 0⟩ : Credentials)).String
        = some "logfusc.Secret[main.Credentials]{REDACTED}"
    ∧ (NewSecret ("foo" : string)).GoString = some "logfusc.Secret[string]{REDACTED}"
    ∧ (NewSecret (42 : Int)).GoString = some "logfusc.Secret[int]{REDACTED}"
    ∧ (NewSecret (⟨"bar", 0⟩ : Credentials)).GoString
        = some "logfusc.Secret[main.Credentials]{REDACTED}" := by
  decide

/-- `Test_string_formatting`: the seven directives on `NewSecret("password")`. -/
theorem test_string_formatting (tables : Char → Bool) :
    Sprintf (secretOperand string tables) "%s" [NewSecret "password"]
      = some "logfusc.Secret[string]{REDACTED}"
    ∧ Sprintf (secretOperand string tables) "%q" [NewSecret "password"]
      = some "\"logfusc.Secret[string]{REDACTED}\""
    ∧ Sprintf (secretOperand string tables) "%v" [NewSecret "password"]
      = some "logfusc.Secret[string]{REDACTED}"
    ∧ Sprintf (secretOperand string tables) "%+v" [NewSecret "password"]
      = some "logfusc.Secret[string]{REDACTED}"
    ∧ Sprintf (secretOperand string tables) "%#v" [NewSecret "password"]
      = some "logfusc.Secret[string]{REDACTED}"
    ∧ Sprintf (secretOperand string tables) "%x" [NewSecret "password"]
      = some "6c6f67667573632e5365637265745b737472696e675d7b52454441435445447d"
    ∧ Sprintf (secretOperand string tables) "%X" [NewSecret "password"]
      = some "6C6F67667573632E5365637265745B737472696E675D7B52454441435445447D" := by
  refine ⟨by rfl, by rfl, by rfl, by rfl, by rfl, by rfl, by rfl⟩

/-- `Test_Secret_MarshalJSON`, the secret on its own: the bytes are the JSON string of
the marker. -/
theorem test_marshal_json :
    (NewSecret ("password" : string)).MarshalJSON
      = some (bytesOf "\"logfusc.Secret[string]{REDACTED}\"", none)
    ∧ (parseJSON (bytesOf "\"logfusc.Secret[string]{REDACTED}\"")).map JSON.kind = some "string" := by
  decide

/-- `Test_Secret_UnmarshalJSON`, the secret on its own: `null` is a no-op, the string
`"password"` is stored, and the number `0` into a `*unUnmarshalable` is an
`UnmarshalError`. -/
theorem test_unmarshal_json :
    (⟨GoType.zero⟩ : Secret string).UnmarshalJSON (bytesOf "null") = (⟨""⟩, none)
    ∧ (⟨GoType.zero⟩ : Secret string).UnmarshalJSON (bytesOf "\"password\"") = (⟨"password"⟩, none)
    ∧ ((NewSecret (some ⟨⟩ : Option unUnmarshalable)).UnmarshalJSON (bytesOf "0")).2
      = some (.unmarshalError ⟨some ⟨⟩⟩) := by
  decide

/-- `Test_UnmarshalError_Error`. -/
theorem test_unmarshal_error_error :
    (⟨0⟩ : UnmarshalError Int).Error
      = some ("failed to unmarshal Secret[int] due to malformed JSON; "
          ++ "details redacted to avoid leaking wrapped int") := by
  rw [Error_eq]; decide

/-! ## The parser does not depend on its fuel -/

/-- Skipping whitespace does not lengthen a text. -/
theorem skipSpace_length (cs : List Char) : (skipSpace cs).length ≤ cs.length := by
  induction cs with
  | nil => simp [skipSpace]
  | cons c cs ih =>
    unfold skipSpace
    split
    · simp only [List.length_cons]; omega
    · simp

/-- A string literal ends before the end of the text it is scanned from. -/
theorem scanString_length (cs : List Char) :
    ∀ (st : StrState) (p : Option Nat) (s rest : List Char),
      scanString cs st p = some (s, rest) → rest.length < cs.length := by
  induction cs with
  | nil => intro st p s rest h; simp [scanString] at h
  | cons c cs ih =>
    intro st p s rest h
    cases st with
    | plain =>
      simp only [scanString] at h
      split at h
      · simp only [Option.some.injEq, Prod.mk.injEq] at h
        rw [← h.2]; simp
      · split at h
        · have := ih _ _ _ _ h
          simp only [List.length_cons]; omega
        · split at h
          · simp at h
          · simp only [Option.map_eq_some'] at h
            obtain ⟨⟨s1, r1⟩, h1, h2⟩ := h
            simp only [Prod.mk.injEq] at h2
            have := ih _ _ _ _ h1
            rw [← h2.2]; simp only [List.length_cons]; omega
    | escape =>
      simp only [scanString] at h
      split at h
      · have := ih _ _ _ _ h
        simp only [List.length_cons]; omega
      · split at h
        · simp at h
        · simp only [Option.map_eq_some'] at h
          obtain ⟨⟨s1, r1⟩, h1, h2⟩ := h
          simp only [Prod.mk.injEq] at h2
          have := ih _ _ _ _ h1
          rw [← h2.2]; simp only [List.length_cons]; omega
    | hex count value =>
      simp only [scanString] at h
      split at h
      · simp at h
      · split at h
        · have := ih _ _ _ _ h
          simp only [List.length_cons]; omega
        · split at h
          · simp only [Option.map_eq_some'] at h
            obtain ⟨⟨s1, r1⟩, h1, h2⟩ := h
            simp only [Prod.mk.injEq] at h2
            have := ih _ _ _ _ h1
            rw [← h2.2]; simp only [List.length_cons]; omega
          · split at h
            · split at h <;>
              · simp only [Option.map_eq_some'] at h
                obtain ⟨⟨s1, r1⟩, h1, h2⟩ := h
                simp only [Prod.mk.injEq] at h2
                have := ih _ _ _ _ h1
                rw [← h2.2]; simp only [List.length_cons]; omega
            · simp only [Option.map_eq_some'] at h
              obtain ⟨⟨s1, r1⟩, h1, h2⟩ := h
              simp only [Prod.mk.injEq] at h2
              have := ih _ _ _ _ h1
              rw [← h2.2]; simp only [List.length_cons]; omega

/-- The digits taken and the rest make up the text. -/
theorem takeDigits_length (cs : List Char) :
    (takeDigits cs).1.length + (takeDigits cs).2.length = cs.length := by
  induction cs with
  | nil => simp [takeDigits]
  | cons c cs ih =>
    unfold takeDigits
    split
    · simp only [List.length_cons]; omega
    · simp

/-- An integer part takes a digit at least. -/
theorem scanInteger_length (cs int rest : List Char) (h : scanInteger cs = some (int, rest)) :
    rest.length < cs.length := by
  unfold scanInteger at h
  simp only at h
  split at h
  · simp at h
  · rename_i hne
    simp only [Option.some.injEq, Prod.mk.injEq] at h
    have hl := takeDigits_length cs
    have hpos : 0 < (takeDigits cs).1.length := by
      rcases hd : (takeDigits cs).1 with _ | ⟨d, ds⟩
      · exact absurd (Or.inl hd) hne
      · simp
    rw [← h.2]; omega

/-- A fraction does not lengthen the text. -/
theorem scanFraction_length (cs frac rest : List Char) (h : scanFraction cs = some (frac, rest)) :
    rest.length ≤ cs.length := by
  unfold scanFraction at h
  split at h
  · rename_i r
    split at h
    · simp at h
    · simp only [Option.some.injEq, Prod.mk.injEq] at h
      have hl := takeDigits_length r
      rw [← h.2]; simp only [List.length_cons]; omega
  · simp only [Option.some.injEq, Prod.mk.injEq] at h
    rw [← h.2]

/-- The digits of an exponent do not lengthen the text. -/
theorem scanExponentDigits_length (mark r exp rest : List Char)
    (h : scanExponentDigits mark r = some (exp, rest)) : rest.length ≤ r.length := by
  unfold scanExponentDigits at h
  split at h
  · simp at h
  · simp only [Option.some.injEq, Prod.mk.injEq] at h
    have hl := takeDigits_length r
    rw [← h.2]; omega

/-- An exponent does not lengthen the text. -/
theorem scanExponent_length (cs exp rest : List Char) (h : scanExponent cs = some (exp, rest)) :
    rest.length ≤ cs.length := by
  unfold scanExponent at h
  split at h
  · simp only [Option.some.injEq, Prod.mk.injEq] at h
    rw [← h.2]
  · split at h
    · split at h
      · have := scanExponentDigits_length _ _ _ _ h
        simp only [List.length_cons]; omega
      · have := scanExponentDigits_length _ _ _ _ h
        simp only [List.length_cons]; omega
      · have := scanExponentDigits_length _ _ _ _ h
        simp only [List.length_cons]; omega
    · simp only [Option.some.injEq, Prod.mk.injEq] at h
      rw [← h.2]

/-- A sign does not lengthen the text. -/
theorem scanSign_length (cs : List Char) : (scanSign cs).2.length ≤ cs.length := by
  unfold scanSign
  split
  · simp
  · simp

/-- A number literal ends before the end of the text it is scanned from. -/
theorem scanNumber_length (cs lit rest : List Char) (h : scanNumber cs = some (lit, rest)) :
    rest.length < cs.length := by
  unfold scanNumber at h
  split at h
  · simp at h
  · rename_i int cs2 hint
    split at h
    · simp at h
    · rename_i frac cs3 hfrac
      split at h
      · simp at h
      · rename_i exp cs4 hexp
        simp only [Option.some.injEq, Prod.mk.injEq] at h
        have h1 := scanInteger_length _ _ _ hint
        have h2 := scanFraction_length _ _ _ hfrac
        have h3 := scanExponent_length _ _ _ hexp
        have h4 := scanSign_length cs
        rw [← h.2]; omega

/-- The characters of a literal are dropped from the text. -/
theorem dropLiteral_length (lit cs rest : List Char) (h : dropLiteral lit cs = some rest) :
    rest.length ≤ cs.length := by
  induction lit generalizing cs with
  | nil => simp only [dropLiteral, Option.some.injEq] at h; rw [h]
  | cons l ls ih =>
    cases cs with
    | nil => simp [dropLiteral] at h
    | cons c cs =>
      simp only [dropLiteral] at h
      split at h
      · have := ih _ h
        simp only [List.length_cons]; omega
      · simp at h

/-- A value ends before the end of the text it is parsed from, when the elements and
the members that it calls for do. -/
theorem parseValue_length_step (fuel : Nat)
    (hE : ∀ cs vs rest, parseElements fuel cs = some (vs, rest) → rest.length < cs.length)
    (hM : ∀ cs ms rest, parseMembers fuel cs = some (ms, rest) → rest.length < cs.length)
    (cs : List Char) (v : JSON) (rest : List Char)
    (h : parseValue (fuel + 1) cs = some (v, rest)) : rest.length < cs.length := by
  rw [parseValue] at h
  have hs := skipSpace_length cs
  split at h
  · simp at h
  · rename_i c r heq
    rw [heq] at hs
    simp only [List.length_cons] at hs
    have hr := skipSpace_length r
    split at h
    · split at h
      · simp at h
      · rename_i d r1 heq1
        rw [heq1] at hr
        simp only [List.length_cons] at hr
        split at h
        · simp only [Option.some.injEq, Prod.mk.injEq] at h
          rw [← h.2]; omega
        · simp only [Option.map_eq_some'] at h
          obtain ⟨⟨ms, r2⟩, h1, h2⟩ := h
          simp only [Prod.mk.injEq] at h2
          have := hM _ _ _ h1
          simp only [List.length_cons] at this
          rw [← h2.2]; omega
    · split at h
      · split at h
        · simp at h
        · rename_i d r1 heq1
          rw [heq1] at hr
          simp only [List.length_cons] at hr
          split at h
          · simp only [Option.some.injEq, Prod.mk.injEq] at h
            rw [← h.2]; omega
          · simp only [Option.map_eq_some'] at h
            obtain ⟨⟨ms, r2⟩, h1, h2⟩ := h
            simp only [Prod.mk.injEq] at h2
            have := hE _ _ _ h1
            simp only [List.length_cons] at this
            rw [← h2.2]; omega
      · split at h
        · simp only [Option.map_eq_some'] at h
          obtain ⟨⟨s, r2⟩, h1, h2⟩ := h
          simp only [Prod.mk.injEq] at h2
          have := scanString_length _ _ _ _ _ h1
          rw [← h2.2]; omega
        · split at h
          · simp only [Option.map_eq_some'] at h
            obtain ⟨r2, h1, h2⟩ := h
            simp only [Prod.mk.injEq] at h2
            have := dropLiteral_length _ _ _ h1
            rw [← h2.2]; omega
          · split at h
            · simp only [Option.map_eq_some'] at h
              obtain ⟨r2, h1, h2⟩ := h
              simp only [Prod.mk.injEq] at h2
              have := dropLiteral_length _ _ _ h1
              rw [← h2.2]; omega
            · split at h
              · simp only [Option.map_eq_some'] at h
                obtain ⟨r2, h1, h2⟩ := h
                simp only [Prod.mk.injEq] at h2
                have := dropLiteral_length _ _ _ h1
                rw [← h2.2]; omega
              · simp only [Option.map_eq_some'] at h
                obtain ⟨⟨s, r2⟩, h1, h2⟩ := h
                simp only [Prod.mk.injEq] at h2
                have := scanNumber_length _ _ _ h1
                simp only [List.length_cons] at this
                rw [← h2.2]; omega

/-- The elements of an array end before the end of the text, when the values do. -/
theorem parseElements_length_step (fuel : Nat)
    (hV : ∀ cs v rest, parseValue fuel cs = some (v, rest) → rest.length < cs.length)
    (hE : ∀ cs vs rest, parseElements fuel cs = some (vs, rest) → rest.length < cs.length)
    (cs : List Char) (vs : List JSON) (rest : List Char)
    (h : parseElements (fuel + 1) cs = some (vs, rest)) : rest.length < cs.length := by
  rw [parseElements] at h
  split at h
  · simp at h
  · rename_i v r hv
    have h1 := hV _ _ _ hv
    have hr := skipSpace_length r
    split at h
    · simp at h
    · rename_i c r1 heq
      rw [heq] at hr
      simp only [List.length_cons] at hr
      split at h
      · simp only [Option.map_eq_some'] at h
        obtain ⟨⟨ws, r2⟩, h2, h3⟩ := h
        simp only [Prod.mk.injEq] at h3
        have := hE _ _ _ h2
        rw [← h3.2]; omega
      · split at h
        · simp only [Option.some.injEq, Prod.mk.injEq] at h
          rw [← h.2]; omega
        · simp at h

/-- The members of an object end before the end of the text, when the values do. -/
theorem parseMembers_length_step (fuel : Nat)
    (hV : ∀ cs v rest, parseValue fuel cs = some (v, rest) → rest.length < cs.length)
    (hM : ∀ cs ms rest, parseMembers fuel cs = some (ms, rest) → rest.length < cs.length)
    (cs : List Char) (ms : List (string × JSON)) (rest : List Char)
    (h : parseMembers (fuel + 1) cs = some (ms, rest)) : rest.length < cs.length := by
  rw [parseMembers] at h
  have hs := skipSpace_length cs
  split at h
  · simp at h
  · rename_i q r heq
    rw [heq] at hs
    simp only [List.length_cons] at hs
    split at h
    · split at h
      · simp at h
      · rename_i key r1 hkey
        have hk := scanString_length _ _ _ _ _ hkey
        have hr1 := skipSpace_length r1
        split at h
        · simp at h
        · rename_i c r2 heq2
          rw [heq2] at hr1
          simp only [List.length_cons] at hr1
          split at h
          · split at h
            · simp at h
            · rename_i v r3 hv
              have h3 := hV _ _ _ hv
              have hr3 := skipSpace_length r3
              split at h
              · simp at h
              · rename_i d r4 heq4
                rw [heq4] at hr3
                simp only [List.length_cons] at hr3
                split at h
                · simp only [Option.map_eq_some'] at h
                  obtain ⟨⟨ws, r5⟩, h5, h6⟩ := h
                  simp only [Prod.mk.injEq] at h6
                  have := hM _ _ _ h5
                  rw [← h6.2]; omega
                · split at h
                  · simp only [Option.some.injEq, Prod.mk.injEq] at h
                    rw [← h.2]; omega
                  · simp at h
          · simp at h
    · simp at h

/-- Values, elements and members end before the end of the text they are parsed
from. -/
theorem parse_length (fuel : Nat) :
    (∀ cs v rest, parseValue fuel cs = some (v, rest) → rest.length < cs.length)
    ∧ (∀ cs vs rest, parseElements fuel cs = some (vs, rest) → rest.length < cs.length)
    ∧ (∀ cs ms rest, parseMembers fuel cs = some (ms, rest) → rest.length < cs.length) := by
  induction fuel with
  | zero =>
    refine ⟨?_, ?_, ?_⟩
    · intro cs v rest h; simp [parseValue] at h
    · intro cs vs rest h; simp [parseElements] at h
    · intro cs ms rest h; simp [parseMembers] at h
  | succ n ih =>
    exact ⟨parseValue_length_step n ih.2.1 ih.2.2, parseElements_length_step n ih.1 ih.2.1,
      parseMembers_length_step n ih.1 ih.2.2⟩

/-- One more unit of fuel does not change a value, when it changes neither the elements
nor the members of shorter texts. -/
theorem parseValue_fuel_step (n : Nat)
    (hE : ∀ cs, 2 * cs.length + 2 ≤ n → parseElements (n + 1) cs = parseElements n cs)
    (hM : ∀ cs, 2 * cs.length ≤ n → 1 ≤ n → parseMembers (n + 1) cs = parseMembers n cs)
    (cs : List Char) (h : 2 * cs.length + 1 ≤ n + 1) :
    parseValue (n + 1 + 1) cs = parseValue (n + 1) cs := by
  rw [parseValue, parseValue]
  have hs := skipSpace_length cs
  split
  · rfl
  · rename_i c r heq
    rw [heq] at hs
    simp only [List.length_cons] at hs
    have hr := skipSpace_length r
    split
    · split
      · rfl
      · rename_i d r1 heq1
        rw [heq1] at hr
        simp only [List.length_cons] at hr
        split
        · rfl
        · rw [hM _ (by simp only [List.length_cons]; omega) (by omega)]
    · split
      · split
        · rfl
        · rename_i d r1 heq1
          rw [heq1] at hr
          simp only [List.length_cons] at hr
          split
          · rfl
          · rw [hE _ (by simp only [List.length_cons]; omega)]
      · rfl

/-- One more unit of fuel does not change the elements of an array. -/
theorem parseElements_fuel_step (n : Nat)
    (hV : ∀ cs, 2 * cs.length + 1 ≤ n → parseValue (n + 1) cs = parseValue n cs)
    (hE : ∀ cs, 2 * cs.length + 2 ≤ n → parseElements (n + 1) cs = parseElements n cs)
    (cs : List Char) (h : 2 * cs.length + 2 ≤ n + 1) :
    parseElements (n + 1 + 1) cs = parseElements (n + 1) cs := by
  rw [parseElements, parseElements, hV cs (by omega)]
  split
  · rfl
  · rename_i v r hv
    have h1 := (parse_length n).1 _ _ _ hv
    have hr := skipSpace_length r
    split
    · rfl
    · rename_i c r1 heq
      rw [heq] at hr
      simp only [List.length_cons] at hr
      split
      · rw [hE _ (by omega)]
      · rfl

/-- One more unit of fuel does not change the members of an object. -/
theorem parseMembers_fuel_step (n : Nat)
    (hV : ∀ cs, 2 * cs.length + 1 ≤ n → parseValue (n + 1) cs = parseValue n cs)
    (hM : ∀ cs, 2 * cs.length ≤ n → 1 ≤ n → parseMembers (n + 1) cs = parseMembers n cs)
    (cs : List Char) (h : 2 * cs.length ≤ n + 1) :
    parseMembers (n + 1 + 1) cs = parseMembers (n + 1) cs := by
  rw [parseMembers, parseMembers]
  have hs := skipSpace_length cs
  split
  · rfl
  · rename_i q r heq
    rw [heq] at hs
    simp only [List.length_cons] at hs
    split
    · split
      · rfl
      · rename_i key r1 hkey
        have hk := scanString_length _ _ _ _ _ hkey
        have hr1 := skipSpace_length r1
        split
        · rfl
        · rename_i c r2 heq2
          rw [heq2] at hr1
          simp only [List.length_cons] at hr1
          split
          · rw [hV r2 (by omega)]
            split
            · rfl
            · rename_i v r3 hv
              have h3 := (parse_length n).1 _ _ _ hv
              have hr3 := skipSpace_length r3
              split
              · rfl
              · rename_i d r4 heq4
                rw [heq4] at hr3
                simp only [List.length_cons] at hr3
                split
                · rw [hM _ (by omega) (by omega)]
                · rfl
          · rfl
    · rfl

/-- From the fuel that `parseJSON` gives on, one more unit changes nothing. -/
theorem parse_fuel_succ (n : Nat) :
    (∀ cs, 2 * cs.length + 1 ≤ n → parseValue (n + 1) cs = parseValue n cs)
    ∧ (∀ cs, 2 * cs.length + 2 ≤ n → parseElements (n + 1) cs = parseElements n cs)
    ∧ (∀ cs, 2 * cs.length ≤ n → 1 ≤ n → parseMembers (n + 1) cs = parseMembers n cs) := by
  induction n with
  | zero =>
    refine ⟨?_, ?_, ?_⟩
    · intro cs h; omega
    · intro cs h; omega
    · intro cs _ h; omega
  | succ n ih =>
    exact ⟨parseValue_fuel_step n ih.2.1 ih.2.2, parseElements_fuel_step n ih.1 ih.2.1,
      fun cs h _ => parseMembers_fuel_step n ih.1 ih.2.2 cs h⟩

/-- The result of `parseValue` is the same for every fuel from the one that `parseJSON`
gives: a `none` of `parseJSON` is a syntax error and never a lack of fuel. -/
theorem parseValue_fuel (cs : List Char) (fuel : Nat) (h : 2 * cs.length + 2 ≤ fuel) :
    parseValue fuel cs = parseValue (2 * cs.length + 2) cs := by
  induction fuel with
  | zero => omega
  | succ n ih =>
    by_cases hn : 2 * cs.length + 2 ≤ n
    · rw [(parse_fuel_succ n).1 cs (by omega), ih hn]
    · have : n + 1 = 2 * cs.length + 2 := by omega
      rw [this]

end Logfusc
